import Mathlib

/-!
# Verification of the flowrider annotation remapping and flow-status engine

This file gives a shallow embedding, in Lean 4, of the core of the
flowrider extension: the annotation remapping engine (`remapper.ts`:
`buildLineMap`, `safeSimilarity`, the three candidate searches,
`dedupeCandidates`, `tryDiffMapping`, `remapAnnotation`,
`RemapEngine.loadFileContext`) and the flow status reconciler
(`flowState.ts`: `edgeKey`, `detectDuplicates`, `computeFlowSummaries`).

JavaScript numbers are modelled as exact rationals (`ℚ`); the design
thresholds 0.9 / 0.7 / 0.6 are the rationals 9/10, 7/10, 3/5.  JavaScript
arrays and `Map`s are modelled as lists and association lists (a JS `Map`
preserves first-insertion key order, which the association-list model
reproduces).  String truthiness (`!s` is true exactly for the empty
string) is modelled explicitly at each use site.

Two npm dependencies of the engine are not part of the repository and are
modelled from the spec where needed: the `string-similarity` scoring
function (spec §4.3: a normalized Dice-style similarity metric) and the
`diff` package's `diffLines` (spec §4.2: a line-level LCS-style diff).
The TypeScript symbol indexer (`ast.ts` builds it with the TypeScript
compiler API) enters only through the `SymbolIndex` value it produces, so
the index is taken as an input here.
-/

/- ----------------------------------------------------------------- -/
/- String helpers                                                    -/
/- ----------------------------------------------------------------- -/

/-- JS `s.split(/\r?\n/)` on the character list: a `"\r\n"` pair or a lone
`"\n"` terminates a line; a `"\r"` not followed by `"\n"` is ordinary
text.  Splitting the empty list yields one empty line, as in JS. -/
def splitCharLines : List Char → List (List Char)
  | [] => [[]]
  | '\r' :: '\n' :: rest => [] :: splitCharLines rest
  | '\n' :: rest => [] :: splitCharLines rest
  | c :: rest =>
    match splitCharLines rest with
    | [] => [[c]]
    | l :: ls => (c :: l) :: ls

/-- JS `s.split(/\r?\n/)`. -/
def splitLines (s : String) : List String :=
  (splitCharLines s.data).map (fun cs => String.mk cs)

/-- JS `lines.join("\n")`. -/
def joinLines : List String → String
  | [] => ""
  | [s] => s
  | s :: rest => s ++ "\n" ++ joinLines rest

/-- JS `!s.trim()`: every character of `s` is whitespace. -/
def isBlank (s : String) : Bool :=
  s.data.all (fun c => c.isWhitespace)

/- ----------------------------------------------------------------- -/
/- String similarity (the `string-similarity` dependency)            -/
/- ----------------------------------------------------------------- -/

/-- The multiset of adjacent character pairs of a string. -/
def bigrams (s : String) : Multiset (Char × Char) :=
  (s.data.zip s.data.tail : List (Char × Char))

/-- Modelled from the spec: `compareTwoStrings` comes from the npm
`string-similarity` package, which is not part of this repository.  The
spec (§4.3) describes it as a normalized string-similarity metric
(symmetric, 0 = disjoint, 1 = identical, case- and whitespace-sensitive)
and the design notes identify the package as Dice-coefficient based, so
it is modelled as the Sørensen–Dice coefficient over adjacent character
bigrams: equal strings score 1, a string shorter than two characters
shares no bigram and scores 0 against anything else, and otherwise the
score is `2·|bigrams a ∩ bigrams b| / (|a| + |b| - 2)`. -/
def compareTwoStrings (a b : String) : ℚ :=
  if a = b then 1
  else if a.length < 2 ∨ b.length < 2 then 0
  else (2 * ((bigrams a ∩ bigrams b).card : ℚ)) / ((a.length + b.length - 2 : ℕ) : ℚ)

/-- `safeSimilarity` from `remapper.ts`: two all-whitespace strings count
as identical, otherwise defer to `compareTwoStrings`. -/
def safeSimilarity (a b : String) : ℚ :=
  if isBlank a && isBlank b then 1 else compareTwoStrings a b

/- ----------------------------------------------------------------- -/
/- Line diff (the `diff` dependency's `diffLines`)                   -/
/- ----------------------------------------------------------------- -/

/-- One part of a line diff: a run of lines common to both texts, added
by the new text, or removed from the old text. -/
inductive DiffPart where
  | common (lines : List String)
  | added (lines : List String)
  | removed (lines : List String)
deriving DecidableEq

/-- Prepend one common line, merging into a leading common run. -/
def pushCommon (x : String) : List DiffPart → List DiffPart
  | .common ls :: rest => .common (x :: ls) :: rest
  | ps => .common [x] :: ps

/-- Prepend one removed line, merging into a leading removed run. -/
def pushRemoved (x : String) : List DiffPart → List DiffPart
  | .removed ls :: rest => .removed (x :: ls) :: rest
  | ps => .removed [x] :: ps

/-- Prepend one added line, merging into a leading added run. -/
def pushAdded (x : String) : List DiffPart → List DiffPart
  | .added ls :: rest => .added (x :: ls) :: rest
  | ps => .added [x] :: ps

/-- Number of added plus removed lines of a diff (the edit cost an
LCS-style diff minimizes). -/
def editCost : List DiffPart → ℕ
  | [] => 0
  | .common _ :: rest => editCost rest
  | .added ls :: rest => ls.length + editCost rest
  | .removed ls :: rest => ls.length + editCost rest

/-- Number of old-text lines a diff consumes. -/
def oldCount : List DiffPart → ℕ
  | [] => 0
  | .common ls :: rest => ls.length + oldCount rest
  | .added _ :: rest => oldCount rest
  | .removed ls :: rest => ls.length + oldCount rest

/-- Fuelled line diff.  Equal heads are taken as common (optimal for an
insert/delete-only edit distance); otherwise the cheaper of
remove-first and add-first is chosen.  The fuel argument makes the
recursion structural; `diffL` supplies enough fuel for it never to be
exhausted. -/
def diffAux : ℕ → List String → List String → List DiffPart
  | _, [], [] => []
  | _, [], y :: ys => [.added (y :: ys)]
  | _, x :: xs, [] => [.removed (x :: xs)]
  | 0, x :: xs, y :: ys => [.removed (x :: xs), .added (y :: ys)]
  | fuel + 1, x :: xs, y :: ys =>
    if x = y then pushCommon x (diffAux fuel xs ys)
    else
      let delFirst := pushRemoved x (diffAux fuel xs (y :: ys))
      let insFirst := pushAdded y (diffAux fuel (x :: xs) ys)
      if editCost delFirst ≤ editCost insFirst then delFirst else insFirst

/-- Modelled from the spec: `diffLines` comes from the npm `diff`
package, which is not part of this repository.  The spec (§4.2) asks for
a line-level longest-common-subsequence-style diff whose parts are, in
order, runs of common, added and removed lines; this executable LCS diff
realises that contract.  Old and new text enter as line lists (the
engine splits contents with the same `/\r?\n/` convention). -/
def diffL (oldLines newLines : List String) : List DiffPart :=
  diffAux (oldLines.length + newLines.length) oldLines newLines

/- ----------------------------------------------------------------- -/
/- Line map (`buildLineMap` in remapper.ts)                          -/
/- ----------------------------------------------------------------- -/

inductive LineMapStatus where
  | mapped
  | deleted
deriving DecidableEq

/-- `LineMapEntry` from `types.ts`. -/
structure LineMapEntry where
  status : LineMapStatus
  newLine : Option ℕ
deriving DecidableEq

/-- A JS `Map<number, LineMapEntry>` with first-insertion key order. -/
abbrev LineMap := List (ℕ × LineMapEntry)

/-- JS `Map.get`. -/
def lineMapGet (m : LineMap) (line : ℕ) : Option LineMapEntry :=
  match m with
  | [] => none
  | (k, e) :: rest => if k = line then some e else lineMapGet rest line

/-- The `map.set(oldLine + i, {status: 'mapped', newLine: newLine + i})`
loop of an unchanged block. -/
def mapCommon (o n : ℕ) : List String → LineMap
  | [] => []
  | _ :: rest => (o, ⟨.mapped, some n⟩) :: mapCommon (o + 1) (n + 1) rest

/-- The `map.set(oldLine + i, {status: 'deleted'})` loop of a removed
block. -/
def mapRemoved (o : ℕ) : List String → LineMap
  | [] => []
  | _ :: rest => (o, ⟨.deleted, none⟩) :: mapRemoved (o + 1) rest

/-- The main loop of `buildLineMap`: walk the diff parts keeping an old
and a new line counter; added parts advance only the new counter,
removed parts mark their old lines deleted, common parts map old lines
to new lines with the running offset. -/
def lineMapOfParts (o n : ℕ) : List DiffPart → LineMap
  | [] => []
  | .added ls :: rest => lineMapOfParts o (n + ls.length) rest
  | .removed ls :: rest => mapRemoved o ls ++ lineMapOfParts (o + ls.length) n rest
  | .common ls :: rest =>
    mapCommon o n ls ++ lineMapOfParts (o + ls.length) (n + ls.length) rest

/-- `buildLineMap` from `remapper.ts`: diff the two contents line-wise
and build the per-old-line map, with 1-based counters. -/
def buildLineMap (oldContent newContent : String) : LineMap :=
  lineMapOfParts 1 1 (diffL (splitLines oldContent) (splitLines newContent))


/- ----------------------------------------------------------------- -/
/- Remapping data model (`types.ts`)                                 -/
/- ----------------------------------------------------------------- -/

/-- `MatchSource` from `types.ts` (the source tags `'diff'`,
`'exact-snippet'`, `'context-line'`, `'fuzzy-window'`, `'ast'`). -/
inductive MatchSource where
  | diff
  | exactSnippet
  | contextLine
  | fuzzyWindow
  | ast
deriving DecidableEq

/-- `MatchCandidate` from `types.ts`. -/
structure MatchCandidate where
  line : ℕ
  score : ℚ
  source : MatchSource
  snippet : Option String := none
  symbol : Option String := none
deriving DecidableEq

/-- The reason codes of the `unmapped` resolution. -/
inductive UnmappedReason where
  | noMatch
  | fileMissing
  | gitMissing
deriving DecidableEq

/-- `ResolutionStatus` from `types.ts` (the code never fills `note`). -/
inductive ResolutionStatus where
  | auto (line : ℕ) (confidence : ℚ) (source : MatchSource)
  | candidates (cands : List MatchCandidate)
  | unmapped (reason : UnmappedReason) (note : Option String)
deriving DecidableEq

/-- `SymbolRange` from `types.ts`. -/
structure SymbolRange where
  path : String
  startLine : ℕ
  endLine : ℕ
  nodeType : String
deriving DecidableEq

/-- `SymbolIndex` from `types.ts`: a JS `Map` from dotted path to range,
as an association list with unique keys. -/
structure SymbolIndex where
  byPath : List (String × SymbolRange)
deriving DecidableEq

/-- `Annotation` from `types.ts`.  `symbolPath`/`nodeType` fold the JS
`string | null | undefined` into one `Option`; the unused open `meta`
record is dropped. -/
structure Annotation where
  id : String
  repoId : Option String := none
  filePath : String
  commitHash : String
  line : ℕ
  isoLine : ℕ
  column : ℕ
  contextBefore : List String
  contextLine : String
  contextAfter : List String
  symbolPath : Option String := none
  nodeType : Option String := none
  flowName : String
  currentNode : String
  nextNode : String
  crossDeclared : Bool
  note : Option String := none
  rawComment : String
deriving DecidableEq

/-- `FileContext` from `remapper.ts`. -/
structure FileContext where
  oldContent : Option String := none
  newContent : Option String := none
  newLines : Option (List String) := none
  lineMap : Option LineMap := none
  symbolIndex : Option SymbolIndex := none
deriving DecidableEq

/-- `SearchRegion` from `remapper.ts` (`startLine` is the 1-based line
number of `lines[0]` in the file). -/
structure SearchRegion where
  lines : List String
  startLine : ℕ
  symbol : Option String := none
deriving DecidableEq

/- ----------------------------------------------------------------- -/
/- Remapping engine (`remapper.ts`)                                  -/
/- ----------------------------------------------------------------- -/

def STRICT_THRESHOLD : ℚ := 9/10
def CANDIDATE_THRESHOLD : ℚ := 7/10
def FUZZY_MIN_THRESHOLD : ℚ := 3/5
def MAX_CANDIDATES : ℕ := 5

/-- `buildSnippet` from `remapper.ts`. -/
def buildSnippet (before : List String) (line : String) (after : List String) : String :=
  joinLines (before ++ line :: after)

/-- `snippetAt` from `remapper.ts`: `slice(max(0, idx - before),
min(len, idx + 1 + after))` around the 1-based `lineNumber`; the JS
`Math.max(0, ·)` clamps are truncated `ℕ` subtraction here. -/
def snippetAt (lines : List String) (lineNumber before after : ℕ) : String :=
  let idx := lineNumber - 1
  let start := idx - before
  let stop := min lines.length (idx + 1 + after)
  joinLines ((lines.drop start).take (stop - start))

/-- `findSymbolRange` from `ast.ts`: a missing index, a JS-falsy (absent
or empty) path, or an unknown path yield nothing. -/
def findSymbolRange (symbolPath : Option String) (index : Option SymbolIndex) :
    Option SymbolRange :=
  match symbolPath, index with
  | some p, some idx => if p = "" then none else idx.byPath.lookup p
  | _, _ => none

/-- `regionFor` from `remapper.ts`: restrict the search to the symbol's
line range when the path resolves, else the whole file. -/
def regionFor (newLines : List String) (symbolPath : Option String)
    (index : Option SymbolIndex) : SearchRegion :=
  match findSymbolRange symbolPath index with
  | none => ⟨newLines, 1, none⟩
  | some range =>
    let start := range.startLine - 1
    let stop := min newLines.length range.endLine
    ⟨(newLines.drop start).take (stop - start), range.startLine, some range.path⟩

/-- `exactSnippetSearch` from `remapper.ts`: every offset where the full
snippet occurs verbatim is a score-1 candidate. -/
def exactSnippetSearch (snippetLines : List String) (region : SearchRegion) :
    List MatchCandidate :=
  if snippetLines.isEmpty then []
  else
    (List.range (region.lines.length + 1 - snippetLines.length)).filterMap fun i =>
      if (region.lines.drop i).take snippetLines.length = snippetLines then
        some ⟨region.startLine + i, 1, .exactSnippet, some (joinLines snippetLines),
          region.symbol⟩
      else none

/-- `contextLineSearch` from `remapper.ts`: at every verbatim occurrence
of the anchor line, score a snippet-height window roughly centred on it. -/
def contextLineSearch (ctxLine : String) (snippet : String)
    (snippetLines : List String) (region : SearchRegion) : List MatchCandidate :=
  if isBlank ctxLine then []
  else
    (List.range region.lines.length).filterMap fun i =>
      if region.lines.get? i = some ctxLine then
        let windowStart := i - snippetLines.length / 2
        let windowStop := min region.lines.length (windowStart + snippetLines.length)
        let window := (region.lines.drop windowStart).take (windowStop - windowStart)
        some ⟨region.startLine + i, safeSimilarity snippet (joinLines window),
          .contextLine, some (joinLines window), region.symbol⟩
      else none

/-- `fuzzyWindowSearch` from `remapper.ts`: slide a snippet-height
window over the region and keep windows scoring at or above the fuzzy
floor. -/
def fuzzyWindowSearch (snippet : String) (snippetLines : List String)
    (region : SearchRegion) : List MatchCandidate :=
  if snippetLines.isEmpty then []
  else
    (List.range (region.lines.length + 1 - snippetLines.length)).filterMap fun i =>
      let window := (region.lines.drop i).take snippetLines.length
      let score := safeSimilarity snippet (joinLines window)
      if FUZZY_MIN_THRESHOLD ≤ score then
        some ⟨region.startLine + i, score, .fuzzyWindow, some (joinLines window),
          region.symbol⟩
      else none

/-- The `bestByLine` accumulator of `dedupeCandidates`: a JS
`Map<number, MatchCandidate>` updated with `set` when the incoming
candidate strictly beats the stored one (or the line is new). -/
def upsertBest (acc : List (ℕ × MatchCandidate)) (c : MatchCandidate) :
    List (ℕ × MatchCandidate) :=
  match acc with
  | [] => [(c.line, c)]
  | (k, e) :: rest =>
    if k = c.line then
      if e.score < c.score then (k, c) :: rest else (k, e) :: rest
    else (k, e) :: upsertBest rest c

/-- `dedupeCandidates` from `remapper.ts`: keep the best candidate per
line (first-insertion key order, as a JS `Map`), then stably sort by
descending score (`Array.sort` with `(a, b) => b.score - a.score`). -/
def dedupeCandidates (cs : List MatchCandidate) : List MatchCandidate :=
  ((cs.foldl upsertBest []).map Prod.snd).mergeSort fun a b => decide (b.score ≤ a.score)

/-- The result record of `tryDiffMapping`. -/
structure DiffOutcome where
  resolution : Option ResolutionStatus := none
  candidate : Option MatchCandidate := none
deriving DecidableEq

/-- `tryDiffMapping` from `remapper.ts`: follow the line map; a mapped
entry (with a JS-truthy, i.e. nonzero, new line) is auto-resolved when
the same-shaped new snippet scores at or above the strict threshold and
otherwise retained as a `diff`-source candidate; anything else
contributes nothing. -/
def tryDiffMapping (ann : Annotation) (ctx : FileContext) (oldSnippet : String) :
    DiffOutcome :=
  match ctx.lineMap, ctx.newLines with
  | some lineMap, some newLines =>
    match lineMapGet lineMap ann.line with
    | some entry =>
      match entry.status, entry.newLine with
      | .mapped, some newLine =>
        if newLine = 0 then ⟨none, none⟩
        else
          let newSnippet := snippetAt newLines newLine
            ann.contextBefore.length ann.contextAfter.length
          let score := safeSimilarity oldSnippet newSnippet
          if STRICT_THRESHOLD ≤ score then
            ⟨some (.auto newLine score .diff), none⟩
          else
            ⟨none, some ⟨newLine, score, .diff, some newSnippet, ann.symbolPath⟩⟩
      | _, _ => ⟨none, none⟩
    | none => ⟨none, none⟩
  | _, _ => ⟨none, none⟩

/-- The candidate pool of `remapAnnotation`: the retained diff
candidate (if any) followed by the results of the three search
strategies over the (possibly symbol-scoped) region. -/
def candidatePool (ann : Annotation) (newLines : List String)
    (symbolIndex : Option SymbolIndex) (diffCandidate : Option MatchCandidate) :
    List MatchCandidate :=
  let oldSnippet := buildSnippet ann.contextBefore ann.contextLine ann.contextAfter
  let snippetLines := splitLines oldSnippet
  let region := regionFor newLines ann.symbolPath symbolIndex
  diffCandidate.toList
    ++ exactSnippetSearch snippetLines region
    ++ contextLineSearch ann.contextLine oldSnippet snippetLines region
    ++ fuzzyWindowSearch oldSnippet snippetLines region

/-- The candidate-search-and-classify phase of `remapAnnotation`:
dedupe and truncate the pool, then classify the top score against the
strict and candidate thresholds. -/
def classifyMerged (ann : Annotation) (newLines : List String)
    (symbolIndex : Option SymbolIndex) (diffCandidate : Option MatchCandidate) :
    ResolutionStatus :=
  match (dedupeCandidates (candidatePool ann newLines symbolIndex diffCandidate)).take
      MAX_CANDIDATES with
  | [] => .unmapped .noMatch none
  | best :: rest =>
    if STRICT_THRESHOLD ≤ best.score then .auto best.line best.score best.source
    else if CANDIDATE_THRESHOLD ≤ best.score then .candidates (best :: rest)
    else .unmapped .noMatch none

/-- `remapAnnotation` from `remapper.ts`.  The guards reproduce the JS
truthiness checks `!ctx.newContent || !ctx.newLines` and
`!ctx.oldContent || !ctx.lineMap` (an empty string is falsy); past the
guards, the fast diff path short-circuits on an auto resolution and the
candidate phase runs otherwise, merging the retained diff candidate. -/
def remapAnnotation (ann : Annotation) (ctx : FileContext) : ResolutionStatus :=
  match ctx.newContent, ctx.newLines with
  | some nc, some newLines =>
    if nc = "" then .unmapped .fileMissing none
    else
      match ctx.oldContent, ctx.lineMap with
      | some oc, some _ =>
        if oc = "" then .unmapped .gitMissing none
        else
          let oldSnippet := buildSnippet ann.contextBefore ann.contextLine ann.contextAfter
          let diffOutcome := tryDiffMapping ann ctx oldSnippet
          match diffOutcome.resolution with
          | some r => r
          | none => classifyMerged ann newLines ctx.symbolIndex diffOutcome.candidate
      | _, _ => .unmapped .gitMissing none
  | _, _ => .unmapped .fileMissing none

/-- `RemapEngine.loadFileContext` from `remapper.ts`, as a pure function
of the two contents the I/O layer would deliver (`getFileAtCommit` for
the old content, `fs.readFile` for the new one; either may be absent).
`newLines` exists exactly when the new content was read; the line map
exists when both contents are JS-truthy (non-empty); the symbol index
(built by the external TypeScript parser, here an oracle argument)
is kept when the new content is truthy. -/
def loadFileContext (oldContent newContent : Option String)
    (parsedIndex : Option SymbolIndex) : FileContext :=
  { oldContent := oldContent
    newContent := newContent
    newLines := newContent.map splitLines
    lineMap :=
      match oldContent, newContent with
      | some oc, some nc =>
        if oc = "" ∨ nc = "" then none else some (buildLineMap oc nc)
      | _, _ => none
    symbolIndex :=
      match newContent with
      | some nc => if nc = "" then none else parsedIndex
      | none => none }

/- ----------------------------------------------------------------- -/
/- Flow status data model (`types.ts`)                               -/
/- ----------------------------------------------------------------- -/

/-- `ParsedComment` from `types.ts`. -/
structure ParsedComment where
  flowName : String
  currentNode : String
  nextNode : String
  crossDeclared : Bool
  rawComment : String
  line : ℕ
  isoLine : ℕ
  column : ℕ
  filePath : String
  relativePath : String
  contextBefore : List String
  contextLine : String
  contextAfter : List String
  symbolPath : Option String := none
  nodeType : Option String := none
deriving DecidableEq

/-- `FlowRecord` from `types.ts`. -/
structure FlowRecord where
  id : String
  name : String
  description : Option String := none
  tags : Option (List String) := none
  createdAt : String
  updatedAt : String
  declaredCross : Bool
  isCross : Bool
  annotations : List Annotation
deriving DecidableEq

/-- A `{filePath, lineNumber}` pair. -/
structure EdgeLocation where
  filePath : String
  lineNumber : ℕ
deriving DecidableEq

/-- The stored-side location block of `MovedEdge`/`MissingEdge`. -/
structure DbLocation where
  filePath : String
  lineNumber : ℕ
  contextBefore : List String
  contextLine : String
  contextAfter : List String
deriving DecidableEq

/-- `DuplicateEdge` from `types.ts`. -/
structure DuplicateEdge where
  currentNode : String
  nextNode : String
  locations : List EdgeLocation
deriving DecidableEq

/-- `MovedEdge` from `types.ts`. -/
structure MovedEdge where
  currentNode : String
  nextNode : String
  dbLocation : DbLocation
  sourceLocation : EdgeLocation
deriving DecidableEq

/-- `MissingEdge` from `types.ts`. -/
structure MissingEdge where
  currentNode : String
  nextNode : String
  dbLocation : DbLocation
  rawComment : String
deriving DecidableEq

/-- `FlowEdge` from `types.ts`. -/
structure FlowEdge where
  flowName : String
  currentPos : String
  nextPos : String
  filePath : String
  lineNumber : ℕ
deriving DecidableEq

/-- `FlowLoadStatus` from `types.ts`; the source tag `'partial'` is
spelled `partialLoad` because `partial` is a Lean keyword. -/
inductive FlowLoadStatus where
  | loaded
  | partialLoad
  | notLoaded
  | duplicates
  | moved
  | missing
deriving DecidableEq

/-- `FlowSummary` from `types.ts`. -/
structure FlowSummary where
  id : String
  name : String
  edges : List FlowEdge
  nodes : List String
  status : FlowLoadStatus
  present : ℕ
  total : ℕ
  extras : ℕ
  declaredCross : Bool
  isCross : Bool
  dirty : Bool
  duplicates : List DuplicateEdge
  moved : List MovedEdge
  missing : List MissingEdge
deriving DecidableEq

/- ----------------------------------------------------------------- -/
/- Flow status reconciler (`flowState.ts`)                           -/
/- ----------------------------------------------------------------- -/

/-- `edgeKey` from `flowState.ts`: the template literal
`flowName|currentNode|nextNode`. -/
def edgeKey (flowName currentNode nextNode : String) : String :=
  flowName ++ "|" ++ currentNode ++ "|" ++ nextNode

/-- The edge key of a parsed comment. -/
def commentKey (c : ParsedComment) : String :=
  edgeKey c.flowName c.currentNode c.nextNode

/-- The edge key of a stored annotation. -/
def annKey (a : Annotation) : String :=
  edgeKey a.flowName a.currentNode a.nextNode

/-- First-occurrence deduplication, as iterating a JS `Set`; the second
argument carries the values already seen. -/
def dedupFirst {α : Type} [DecidableEq α] : List α → List α → List α
  | [], _ => []
  | x :: rest, seen =>
    if x ∈ seen then dedupFirst rest seen else x :: dedupFirst rest (x :: seen)

/-- `detectDuplicates` from `flowState.ts`: group the comments by edge
key (a JS `Map` keeps first-insertion key order) and report every group
with more than one member. -/
def detectDuplicates (comments : List ParsedComment) : List DuplicateEdge :=
  (dedupFirst (comments.map commentKey) []).filterMap fun k =>
    match comments.filter (fun c => commentKey c = k) with
    | g0 :: _ :: _ =>
      some ⟨g0.currentNode, g0.nextNode,
        (comments.filter (fun c => commentKey c = k)).map fun c => ⟨c.filePath, c.line⟩⟩
    | _ => none

/-- The `seenKeys`/`uniqueComments` loop of `computeFlowSummaries`:
keep the first comment per edge key. -/
def uniqueByKey : List ParsedComment → List String → List ParsedComment
  | [], _ => []
  | c :: rest, seen =>
    if commentKey c ∈ seen then uniqueByKey rest seen
    else c :: uniqueByKey rest (commentKey c :: seen)

/-- The running result of the annotation-matching loop of
`computeFlowSummaries`. -/
structure MatchAccum where
  present : ℕ
  matchedKeys : List String
  moved : List MovedEdge
  missing : List MissingEdge
deriving DecidableEq

/-- The annotation-matching loop of `computeFlowSummaries`: look each
stored annotation's edge key up among the unique comments; a hit counts
as present (and as moved when file or line differ), a miss is reported
missing. -/
def matchResults (uniq : List ParsedComment) : List Annotation → MatchAccum
  | [] => ⟨0, [], [], []⟩
  | a :: rest =>
    let r := matchResults uniq rest
    match uniq.find? (fun c => commentKey c = annKey a) with
    | some c =>
      if a.filePath ≠ c.relativePath ∨ a.line ≠ c.line then
        ⟨r.present + 1, annKey a :: r.matchedKeys,
          ⟨a.currentNode, a.nextNode,
            ⟨a.filePath, a.line, a.contextBefore, a.contextLine, a.contextAfter⟩,
            ⟨c.relativePath, c.line⟩⟩ :: r.moved,
          r.missing⟩
      else
        ⟨r.present + 1, annKey a :: r.matchedKeys, r.moved, r.missing⟩
    | none =>
      ⟨r.present, r.matchedKeys, r.moved,
        ⟨a.currentNode, a.nextNode,
          ⟨a.filePath, a.line, a.contextBefore, a.contextLine, a.contextAfter⟩,
          a.rawComment⟩ :: r.missing⟩

/-- The per-flow body of `computeFlowSummaries`' main loop. -/
def summarizeFlow (flows : List FlowRecord) (parsedComments : List ParsedComment)
    (flowName : String) : FlowSummary :=
  let dbFlow := flows.find? (fun f => f.name = flowName)
  let comments := parsedComments.filter (fun c => c.flowName = flowName)
  let duplicates := detectDuplicates comments
  let uniq := uniqueByKey comments []
  let acc : MatchAccum :=
    match dbFlow with
    | some f => matchResults uniq f.annotations
    | none => ⟨0, [], [], []⟩
  let extras :=
    (uniq.filter fun c =>
      !(acc.matchedKeys.contains (commentKey c)) || dbFlow.isNone).length
  let total :=
    match dbFlow with
    | some f => f.annotations.length
    | none => 0
  let dirty : Bool :=
    match dbFlow with
    | some _ => decide (acc.present ≠ total) || decide (0 < extras)
    | none => true
  let status : FlowLoadStatus :=
    if duplicates.length ≠ 0 then .duplicates
    else if acc.missing.length ≠ 0 then .missing
    else if acc.moved.length ≠ 0 then .moved
    else if comments.length = 0 ∧ total = 0 then .notLoaded
    else if dirty = false then .loaded
    else .partialLoad
  let edgeSrc :=
    if comments.length ≠ 0 then
      comments.map fun c =>
        (⟨flowName, c.currentNode, c.nextNode, c.filePath, c.line⟩ : FlowEdge)
    else
      ((match dbFlow with
        | some f => f.annotations
        | none => []) : List Annotation).map fun a =>
        (⟨flowName, a.currentNode, a.nextNode, a.filePath, a.line⟩ : FlowEdge)
  let nodeSrc :=
    if comments.length ≠ 0 then
      comments.flatMap fun c => [c.currentNode, c.nextNode]
    else
      ((match dbFlow with
        | some f => f.annotations
        | none => []) : List Annotation).flatMap fun a => [a.currentNode, a.nextNode]
  let declaredCross : Bool :=
    if comments.length ≠ 0 then
      comments.any (fun c => c.crossDeclared)
        || (match dbFlow with
            | some f => f.declaredCross
            | none => false)
    else
      match dbFlow with
      | some f => f.declaredCross
      | none => false
  { id :=
      match dbFlow with
      | some f => f.id
      | none => "unsaved::" ++ flowName
    name := flowName
    edges := edgeSrc.mergeSort fun a b => decide (a.lineNumber ≤ b.lineNumber)
    nodes := (dedupFirst nodeSrc []).mergeSort fun a b => decide (a ≤ b)
    status := status
    present := acc.present
    total := total
    extras := extras
    declaredCross := declaredCross
    isCross :=
      match dbFlow with
      | some f => f.isCross
      | none => declaredCross
    dirty := dirty
    duplicates := duplicates
    moved := acc.moved
    missing := acc.missing }

/-- `computeFlowSummaries` from `flowState.ts`: one summary per flow
name occurring in the database or in the scan, in name order (the JS
`localeCompare` sort is modelled as the character-wise string order). -/
def computeFlowSummaries (flows : List FlowRecord)
    (parsedComments : List ParsedComment) : List FlowSummary :=
  let allFlowNames :=
    dedupFirst (flows.map (fun f => f.name) ++ parsedComments.map (fun c => c.flowName)) []
  (allFlowNames.map (summarizeFlow flows parsedComments)).mergeSort
    fun a b => decide (a.name ≤ b.name)

/- ----------------------------------------------------------------- -/
/- Concrete inputs used by witnesses and counterexamples             -/
/- ----------------------------------------------------------------- -/

/-- A minimal annotation at line 1 with a configurable anchor line. -/
def mkAnn (ctxLine : String) : Annotation :=
  { id := "a1", filePath := "f.ts", commitHash := "c1", line := 1, isoLine := 1,
    column := 1, contextBefore := [], contextLine := ctxLine, contextAfter := [],
    flowName := "F", currentNode := "A", nextNode := "B", crossDeclared := false,
    rawComment := "// flow F A->B" }

/-- Annotation whose stored snippet is the single line `abcdefghi`. -/
def exAnnPool : Annotation := mkAnn "abcdefghi"

/-- File pair for the threshold counterexample: the stored line was
rewritten into two lines scoring 3/4 and 5/8 against the snippet. -/
def exCtxPool : FileContext :=
  loadFileContext (some "abcdefghi") (some "abcdefgXY\nabcdefXYZ") none

/-- Annotation whose stored snippet is the single line `abcdefghijk`. -/
def exAnnBoundary : Annotation := mkAnn "abcdefghijk"

/-- File pair whose single fuzzy candidate scores exactly 7/10. -/
def exCtxBoundary : FileContext :=
  loadFileContext (some "abcdefghijk") (some "abcdefghXYZ") none

/-- A database flow with no annotations. -/
def exFlowEmpty : FlowRecord :=
  { id := "f1", name := "alpha", createdAt := "t0", updatedAt := "t0",
    declaredCross := false, isCross := false, annotations := [] }

/-- The summary `computeFlowSummaries` produces for `exFlowEmpty` and an
empty scan. -/
def exSummaryEmpty : FlowSummary :=
  { id := "f1", name := "alpha", edges := [], nodes := [], status := .notLoaded,
    present := 0, total := 0, extras := 0, declaredCross := false, isCross := false,
    dirty := false, duplicates := [], moved := [], missing := [] }

/-- A file with two textually identical function bodies. -/
def exLinesTwin : List String :=
  ["def first()", "  return 1", "end", "def second()", "  return 1", "end"]

/-- A symbol index resolving `second` to lines 4-6 of `exLinesTwin`. -/
def exIdxTwin : SymbolIndex :=
  ⟨[("second", ⟨"second", 4, 6, "FunctionDeclaration"⟩)]⟩

/- ----------------------------------------------------------------- -/
/- Lemmas on the similarity metric                                   -/
/- ----------------------------------------------------------------- -/

theorem bigrams_card (s : String) : (bigrams s).card = s.length - 1 := by
  simp only [bigrams, Multiset.coe_card, List.length_zip, List.length_tail,
    String.length]
  omega

theorem compareTwoStrings_symm (a b : String) :
    compareTwoStrings a b = compareTwoStrings b a := by
  unfold compareTwoStrings
  by_cases hab : a = b
  · subst hab; rfl
  · have hba : ¬ b = a := fun h => hab h.symm
    rw [if_neg hab, if_neg hba]
    by_cases hl : a.length < 2 ∨ b.length < 2
    · rw [if_pos hl, if_pos (Or.symm hl)]
    · rw [if_neg hl, if_neg (fun h => hl (Or.symm h))]
      rw [Multiset.inter_comm, Nat.add_comm b.length a.length]

theorem safeSimilarity_symm (a b : String) :
    safeSimilarity a b = safeSimilarity b a := by
  unfold safeSimilarity
  rw [Bool.and_comm, compareTwoStrings_symm]

theorem safeSimilarity_self (a : String) : safeSimilarity a a = 1 := by
  unfold safeSimilarity compareTwoStrings
  by_cases h : (isBlank a && isBlank a) = true
  · rw [if_pos h]
  · rw [if_neg h, if_pos rfl]

theorem compareTwoStrings_nonneg (a b : String) : 0 ≤ compareTwoStrings a b := by
  unfold compareTwoStrings
  split
  · norm_num
  · split
    · norm_num
    · positivity

theorem compareTwoStrings_le_one (a b : String) : compareTwoStrings a b ≤ 1 := by
  unfold compareTwoStrings
  split
  · norm_num
  · split
    · norm_num
    · rename_i hne hlen
      push_neg at hlen
      obtain ⟨ha, hb⟩ := hlen
      have hca : (bigrams a ∩ bigrams b).card ≤ a.length - 1 := by
        calc (bigrams a ∩ bigrams b).card ≤ (bigrams a).card :=
              Multiset.card_le_card (Multiset.inter_le_left _ _)
          _ = a.length - 1 := bigrams_card a
      have hcb : (bigrams a ∩ bigrams b).card ≤ b.length - 1 := by
        calc (bigrams a ∩ bigrams b).card ≤ (bigrams b).card :=
              Multiset.card_le_card (Multiset.inter_le_right _ _)
          _ = b.length - 1 := bigrams_card b
      have hnum : 2 * (bigrams a ∩ bigrams b).card ≤ a.length + b.length - 2 := by
        omega
      have hden : (0 : ℚ) < ((a.length + b.length - 2 : ℕ) : ℚ) := by
        have : 2 ≤ a.length + b.length - 2 := by omega
        exact_mod_cast Nat.lt_of_lt_of_le (by norm_num) this
      rw [div_le_one hden]
      calc (2 : ℚ) * ((bigrams a ∩ bigrams b).card : ℚ)
          = ((2 * (bigrams a ∩ bigrams b).card : ℕ) : ℚ) := by push_cast; ring
        _ ≤ ((a.length + b.length - 2 : ℕ) : ℚ) := by exact_mod_cast hnum

theorem safeSimilarity_nonneg (a b : String) : 0 ≤ safeSimilarity a b := by
  unfold safeSimilarity
  split
  · norm_num
  · exact compareTwoStrings_nonneg a b

theorem safeSimilarity_le_one (a b : String) : safeSimilarity a b ≤ 1 := by
  unfold safeSimilarity
  split
  · norm_num
  · exact compareTwoStrings_le_one a b

/-- Claim C9 counterexample: two distinct strings — differing only in
the placement of whitespace — that `safeSimilarity` scores 1, refuting
both "equal to 1 only when identical" and the universal reading of
whitespace-sensitivity. -/
theorem similarity_identity_counterexample :
    safeSimilarity "aa a" "a aa" = 1 ∧ "aa a" ≠ "a aa" := by
  constructor
  · with_unfolding_all decide
  · decide

/-- Claim C9 (amended): `safeSimilarity` is symmetric, bounded in
`[0, 1]` and equal to 1 on equal strings; it is case- and
whitespace-sensitive in the sense that some case-only and some
whitespace-only changes lower the score below 1 (it is not case- or
whitespace-invariant), but a score of 1 does not imply identity:
distinct strings with equal bigram multisets also score 1. -/
theorem similarity_metric_props :
    (∀ a b : String, safeSimilarity a b = safeSimilarity b a)
    ∧ (∀ a b : String, 0 ≤ safeSimilarity a b ∧ safeSimilarity a b ≤ 1)
    ∧ (∀ a : String, safeSimilarity a a = 1)
    ∧ (safeSimilarity "ab" "Ab" < 1 ∧ safeSimilarity "ab" "a b" < 1) := by
  refine ⟨safeSimilarity_symm, fun a b => ⟨safeSimilarity_nonneg a b,
    safeSimilarity_le_one a b⟩, safeSimilarity_self, ?_, ?_⟩
  · with_unfolding_all decide
  · with_unfolding_all decide

/-- Claim C8: `remapAnnotation` is a total function (it cannot throw);
with a context loaded for the pair of contents the I/O layer delivered,
an absent current content yields `unmapped(file-missing)`, a present
non-empty current content with an absent historical content yields
`unmapped(git-missing)`, and when both are absent the current-file
check wins. -/
theorem remap_missing_inputs (ann : Annotation) (oldC newC : Option String)
    (si : Option SymbolIndex) :
    (newC = none →
      remapAnnotation ann (loadFileContext oldC newC si)
        = .unmapped .fileMissing none)
    ∧ (∀ nc : String, newC = some nc → nc ≠ "" → oldC = none →
      remapAnnotation ann (loadFileContext oldC newC si)
        = .unmapped .gitMissing none)
    ∧ (oldC = none → newC = none →
      remapAnnotation ann (loadFileContext oldC newC si)
        = .unmapped .fileMissing none) := by
  refine ⟨?_, ?_, ?_⟩
  · rintro rfl
    rfl
  · rintro nc rfl hnc rfl
    simp [ remapAnnotation, loadFileContext, hnc]
  · rintro rfl rfl
    rfl

/-- Witness for C8 at concrete inputs. -/
theorem remap_missing_inputs_witness :
    remapAnnotation (mkAnn "x") (loadFileContext none none none)
        = .unmapped .fileMissing none
    ∧ remapAnnotation (mkAnn "x") (loadFileContext none (some "y") none)
        = .unmapped .gitMissing none :=
  ⟨(remap_missing_inputs (mkAnn "x") none none none).1 rfl,
   (remap_missing_inputs (mkAnn "x") none (some "y") none).2.1 "y" rfl
     (by decide) rfl⟩

/-- Claim C10: empty content is indistinguishable from absent content
at the remap interface — an empty current file yields
`unmapped(file-missing)` whatever the historical side holds, and a
non-empty current file with an empty historical revision yields
`unmapped(git-missing)`. -/
theorem remap_empty_inputs (ann : Annotation) (si : Option SymbolIndex) :
    (∀ oldC : Option String,
      remapAnnotation ann (loadFileContext oldC (some "") si)
        = .unmapped .fileMissing none)
    ∧ (∀ nc : String, nc ≠ "" →
      remapAnnotation ann (loadFileContext (some "") (some nc) si)
        = .unmapped .gitMissing none) := by
  constructor
  · intro oldC
    rfl
  · intro nc hnc
    simp [ remapAnnotation, loadFileContext, hnc]

/-- Witness for C10 at concrete inputs. -/
theorem remap_empty_inputs_witness :
    remapAnnotation (mkAnn "x") (loadFileContext (some "z") (some "") none)
        = .unmapped .fileMissing none
    ∧ remapAnnotation (mkAnn "x") (loadFileContext (some "") (some "y") none)
        = .unmapped .gitMissing none :=
  ⟨(remap_empty_inputs (mkAnn "x") none).1 (some "z"),
   (remap_empty_inputs (mkAnn "x") none).2 "y" (by decide)⟩

/- ----------------------------------------------------------------- -/
/- Lemmas on the diff and the line map                               -/
/- ----------------------------------------------------------------- -/

theorem oldCount_pushCommon (x : String) (ps : List DiffPart) :
    oldCount (pushCommon x ps) = oldCount ps + 1 := by
  cases ps with
  | nil => rfl
  | cons p rest => cases p <;> simp [pushCommon, oldCount] <;> omega

theorem oldCount_pushRemoved (x : String) (ps : List DiffPart) :
    oldCount (pushRemoved x ps) = oldCount ps + 1 := by
  cases ps with
  | nil => rfl
  | cons p rest => cases p <;> simp [pushRemoved, oldCount] <;> omega

theorem oldCount_pushAdded (x : String) (ps : List DiffPart) :
    oldCount (pushAdded x ps) = oldCount ps := by
  cases ps with
  | nil => rfl
  | cons p rest => cases p <;> simp [pushAdded, oldCount]

theorem oldCount_diffAux (fuel : ℕ) (xs ys : List String) :
    oldCount (diffAux fuel xs ys) = xs.length := by
  induction fuel generalizing xs ys with
  | zero =>
    cases xs <;> cases ys <;> simp [diffAux, oldCount]
  | succ n ih =>
    cases xs with
    | nil => cases ys <;> simp [diffAux, oldCount]
    | cons x xs' =>
      cases ys with
      | nil => simp [diffAux, oldCount]
      | cons y ys' =>
        simp only [diffAux]
        by_cases hxy : x = y
        · rw [if_pos hxy, oldCount_pushCommon, ih]
          simp
        · rw [if_neg hxy]
          split
          · rw [oldCount_pushRemoved, ih]
            simp
          · rw [oldCount_pushAdded, ih]

theorem mapCommon_fst (ls : List String) (o n : ℕ) :
    (mapCommon o n ls).map Prod.fst = List.range' o ls.length := by
  induction ls generalizing o n with
  | nil => rfl
  | cons l rest ih => simp [mapCommon, List.range', ih]

theorem mapRemoved_fst (ls : List String) (o : ℕ) :
    (mapRemoved o ls).map Prod.fst = List.range' o ls.length := by
  induction ls generalizing o with
  | nil => rfl
  | cons l rest ih => simp [mapRemoved, List.range', ih]

theorem lineMapOfParts_fst (parts : List DiffPart) (o n : ℕ) :
    (lineMapOfParts o n parts).map Prod.fst = List.range' o (oldCount parts) := by
  induction parts generalizing o n with
  | nil => rfl
  | cons p rest ih =>
    cases p with
    | added ls => simp [lineMapOfParts, oldCount, ih]
    | removed ls =>
      simp only [lineMapOfParts, oldCount, List.map_append, mapRemoved_fst, ih]
      rw [List.range'_append_1, Nat.add_comm]
    | common ls =>
      simp only [lineMapOfParts, oldCount, List.map_append, mapCommon_fst, ih]
      rw [List.range'_append_1, Nat.add_comm]

theorem mem_mapCommon {p : ℕ × LineMapEntry} (ls : List String) (o n : ℕ)
    (h : p ∈ mapCommon o n ls) :
    ∃ i, i < ls.length ∧ p = (o + i, ⟨.mapped, some (n + i)⟩) := by
  induction ls generalizing o n with
  | nil => cases h
  | cons l rest ih =>
    rcases List.mem_cons.1 h with h | h
    · exact ⟨0, by simp, by simp [h]⟩
    · obtain ⟨i, hi, rfl⟩ := ih (o + 1) (n + 1) h
      exact ⟨i + 1, by simp; omega, by simp [Nat.add_assoc, Nat.add_comm 1 i]⟩

theorem mem_mapRemoved {p : ℕ × LineMapEntry} (ls : List String) (o : ℕ)
    (h : p ∈ mapRemoved o ls) :
    ∃ i, i < ls.length ∧ p = (o + i, ⟨.deleted, none⟩) := by
  induction ls generalizing o with
  | nil => cases h
  | cons l rest ih =>
    rcases List.mem_cons.1 h with h | h
    · exact ⟨0, by simp, by simp [h]⟩
    · obtain ⟨i, hi, rfl⟩ := ih (o + 1) h
      exact ⟨i + 1, by simp; omega, by simp [Nat.add_assoc, Nat.add_comm 1 i]⟩

/-- Shape of every line-map entry: mapped with a new line at least the
running new counter, or deleted with no new line. -/
theorem lineMapOfParts_shape (parts : List DiffPart) (o n : ℕ)
    {p : ℕ × LineMapEntry} (h : p ∈ lineMapOfParts o n parts) :
    (p.2.status = .mapped ∧ ∃ k, n ≤ k ∧ p.2.newLine = some k)
    ∨ (p.2.status = .deleted ∧ p.2.newLine = none) := by
  induction parts generalizing o n with
  | nil => cases h
  | cons q rest ih =>
    cases q with
    | added ls =>
      rcases ih _ _ h with ⟨hs, k, hk, hnl⟩ | hright
      · exact Or.inl ⟨hs, k, by omega, hnl⟩
      · exact Or.inr hright
    | removed ls =>
      rcases List.mem_append.1 h with hl | hr
      · obtain ⟨i, hi, rfl⟩ := mem_mapRemoved ls o hl
        exact Or.inr ⟨rfl, rfl⟩
      · exact ih _ _ hr
    | common ls =>
      rcases List.mem_append.1 h with hl | hr
      · obtain ⟨i, hi, rfl⟩ := mem_mapCommon ls o n hl
        exact Or.inl ⟨rfl, n + i, by omega, rfl⟩
      · rcases ih _ _ hr with ⟨hs, k, hk, hnl⟩ | hright
        · exact Or.inl ⟨hs, k, by omega, hnl⟩
        · exact Or.inr hright

/-- The strict-monotonicity relation between line-map entries. -/
def NewLineLt (p q : ℕ × LineMapEntry) : Prop :=
  ∀ x y, p.2.newLine = some x → q.2.newLine = some y → x < y

theorem pairwise_of_newLine_none {l : LineMap}
    (h : ∀ p ∈ l, p.2.newLine = none) : l.Pairwise NewLineLt := by
  induction l with
  | nil => exact List.Pairwise.nil
  | cons p rest ih =>
    refine List.Pairwise.cons (fun q _ x y hx _ => ?_) (ih fun q hq => h q (by simp [hq]))
    rw [h p (by simp)] at hx
    cases hx

theorem pairwise_mapCommon (ls : List String) (o n : ℕ) :
    (mapCommon o n ls).Pairwise NewLineLt := by
  induction ls generalizing o n with
  | nil => exact List.Pairwise.nil
  | cons l rest ih =>
    refine List.Pairwise.cons (fun q hq x y hx hy => ?_) (ih (o + 1) (n + 1))
    obtain ⟨i, hi, rfl⟩ := mem_mapCommon rest (o + 1) (n + 1) hq
    simp only at hx hy
    cases hx
    cases hy
    omega

theorem pairwise_lineMapOfParts (parts : List DiffPart) (o n : ℕ) :
    (lineMapOfParts o n parts).Pairwise NewLineLt := by
  induction parts generalizing o n with
  | nil => exact List.Pairwise.nil
  | cons q rest ih =>
    cases q with
    | added ls => exact ih o (n + ls.length)
    | removed ls =>
      rw [lineMapOfParts, List.pairwise_append]
      refine ⟨pairwise_of_newLine_none ?_, ih _ _, ?_⟩
      · intro p hp
        obtain ⟨i, hi, rfl⟩ := mem_mapRemoved ls o hp
        rfl
      · intro a ha b _ x y hx _
        obtain ⟨i, hi, rfl⟩ := mem_mapRemoved ls o ha
        cases hx
    | common ls =>
      rw [lineMapOfParts, List.pairwise_append]
      refine ⟨pairwise_mapCommon ls o n, ih _ _, ?_⟩
      intro a ha b hb x y hx hy
      obtain ⟨i, hi, rfl⟩ := mem_mapCommon ls o n ha
      simp only at hx
      cases hx
      rcases lineMapOfParts_shape rest (o + ls.length) (n + ls.length) hb with
        ⟨_, k, hk, hnl⟩ | ⟨_, hnone⟩
      · rw [hnl] at hy
        cases hy
        omega
      · rw [hnone] at hy
        cases hy

/-- Claim C7: for every pair of texts, `buildLineMap` assigns exactly
one entry to every historical line in `[1, oldLineCount]` (its keys are
exactly `1, …, oldLineCount` in order), every entry is either mapped
with a positive new line or deleted with none, and the new-line numbers
of mapped entries are strictly increasing (hence monotonically
non-decreasing) in the old-line order. -/
theorem line_map_invariant (oldContent newContent : String) :
    ((buildLineMap oldContent newContent).map Prod.fst
      = List.range' 1 (splitLines oldContent).length)
    ∧ (∀ p ∈ buildLineMap oldContent newContent,
        (p.2.status = .mapped ∧ ∃ k, 1 ≤ k ∧ p.2.newLine = some k)
        ∨ (p.2.status = .deleted ∧ p.2.newLine = none))
    ∧ (buildLineMap oldContent newContent).Pairwise NewLineLt := by
  refine ⟨?_, ?_, ?_⟩
  · rw [buildLineMap, lineMapOfParts_fst, diffL, oldCount_diffAux]
  · intro p hp
    exact lineMapOfParts_shape _ 1 1 hp
  · exact pairwise_lineMapOfParts _ 1 1

/-- Witness for C7 at concrete texts. -/
theorem line_map_invariant_witness :
    (buildLineMap "a\nb" "b\nc").map Prod.fst = List.range' 1 2 :=
  (line_map_invariant "a\nb" "b\nc").1

theorem splitCharLines_ne_nil (cs : List Char) : splitCharLines cs ≠ [] := by
  rw [splitCharLines.eq_def]
  split
  · simp
  · simp
  · simp
  · split <;> simp

theorem splitLines_ne_nil (s : String) : splitLines s ≠ [] := by
  simp [splitLines, splitCharLines_ne_nil]

theorem diffAux_nil_nil (fuel : ℕ) : diffAux fuel [] [] = [] := by
  cases fuel <;> rfl

/-- Diffing a list against itself yields a single common run. -/
theorem diffAux_self (xs : List String) (fuel : ℕ) (hfuel : xs.length ≤ fuel)
    (hne : xs ≠ []) : diffAux fuel xs xs = [.common xs] := by
  induction xs generalizing fuel with
  | nil => exact absurd rfl hne
  | cons x rest ih =>
    cases fuel with
    | zero => simp at hfuel
    | succ f =>
      rw [diffAux, if_pos rfl]
      cases hrest : rest with
      | nil =>
        subst hrest
        rw [diffAux_nil_nil]
        rfl
      | cons r rs =>
        subst hrest
        rw [ih f (by simp at hfuel ⊢; omega) (by simp)]
        rfl

theorem buildLineMap_self (s : String) :
    buildLineMap s s = mapCommon 1 1 (splitLines s) := by
  rw [buildLineMap, diffL, diffAux_self (splitLines s) _ (by omega) (splitLines_ne_nil s)]
  rw [lineMapOfParts, lineMapOfParts, List.append_nil]

theorem mapCommon_get (ls : List String) (o n k : ℕ) (h1 : o ≤ k)
    (h2 : k < o + ls.length) :
    lineMapGet (mapCommon o n ls) k = some ⟨.mapped, some (n + (k - o))⟩ := by
  induction ls generalizing o n with
  | nil => exact absurd (by simpa using h2) (Nat.not_lt.2 h1)
  | cons l rest ih =>
    rw [mapCommon, lineMapGet]
    by_cases hk : o = k
    · rw [if_pos hk]
      subst hk
      simp
    · rw [if_neg hk]
      rw [ih (o + 1) (n + 1) (by omega) (by simp at h2 ⊢; omega)]
      have : n + 1 + (k - (o + 1)) = n + (k - o) := by omega
      rw [this]

/-- Unfolding of `remapAnnotation` past its availability guards. -/
theorem remapAnnotation_step (ann : Annotation) (ctx : FileContext)
    (nc : String) (nl : List String) (oc : String) (lm : LineMap)
    (h1 : ctx.newContent = some nc) (h2 : nc ≠ "")
    (h3 : ctx.newLines = some nl)
    (h4 : ctx.oldContent = some oc) (h5 : oc ≠ "")
    (h6 : ctx.lineMap = some lm) :
    remapAnnotation ann ctx =
      match (tryDiffMapping ann ctx
          (buildSnippet ann.contextBefore ann.contextLine ann.contextAfter)).resolution with
      | some r => r
      | none =>
        classifyMerged ann nl ctx.symbolIndex
          (tryDiffMapping ann ctx
            (buildSnippet ann.contextBefore ann.contextLine ann.contextAfter)).candidate := by
  rw [ remapAnnotation.eq_def, h1, h3]
  dsimp only
  rw [if_neg h2, h4, h6]
  dsimp only
  rw [if_neg h5]

/-- Claim C1 (amended): remapping against identical old and new text
auto-resolves at the stored line with confidence 1 and source `diff`,
provided the current text is non-empty, the stored line exists in it,
and the stored snippet equals the same-shaped snippet around the stored
line. -/
theorem identity_remap (txt : String) (ann : Annotation) (si : Option SymbolIndex)
    (hne : txt ≠ "") (h1 : 1 ≤ ann.line) (h2 : ann.line ≤ (splitLines txt).length)
    (hsnip : buildSnippet ann.contextBefore ann.contextLine ann.contextAfter
      = snippetAt (splitLines txt) ann.line ann.contextBefore.length
          ann.contextAfter.length) :
    remapAnnotation ann (loadFileContext (some txt) (some txt) si)
      = .auto ann.line 1 .diff := by
  have hctxmap : (loadFileContext (some txt) (some txt) si).lineMap
      = some (mapCommon 1 1 (splitLines txt)) := by
    simp [loadFileContext, hne, buildLineMap_self]
  have hctxlines : (loadFileContext (some txt) (some txt) si).newLines
      = some (splitLines txt) := by
    simp [loadFileContext]
  have hget : lineMapGet (mapCommon 1 1 (splitLines txt)) ann.line
      = some ⟨.mapped, some ann.line⟩ := by
    have h := mapCommon_get (splitLines txt) 1 1 ann.line h1 (by omega)
    rwa [show 1 + (ann.line - 1) = ann.line by omega] at h
  have hdiff : tryDiffMapping ann (loadFileContext (some txt) (some txt) si)
      (buildSnippet ann.contextBefore ann.contextLine ann.contextAfter)
      = ⟨some (.auto ann.line 1 .diff), none⟩ := by
    rw [tryDiffMapping.eq_def, hctxmap, hctxlines]
    simp only
    rw [hget]
    simp only
    rw [if_neg (by omega : ¬ ann.line = 0), ← hsnip, safeSimilarity_self,
      if_pos (by norm_num [STRICT_THRESHOLD] : STRICT_THRESHOLD ≤ (1 : ℚ))]
  rw [remapAnnotation_step ann _ txt (splitLines txt) txt
      (mapCommon 1 1 (splitLines txt)) (by simp [loadFileContext]) hne hctxlines
      (by simp [loadFileContext]) hne hctxmap, hdiff]

/-- An annotation at line 1 of an empty file with an empty stored
snippet. -/
def annEmpty : Annotation := mkAnn ""

/-- Claim C1 counterexample: for an empty file (identical old and new
text), the stored snippet of `annEmpty` equals the lines actually
present around its stored line 1, yet remapping yields
`unmapped(file-missing)` rather than the auto resolution the claim
demands. -/
theorem identity_remap_counterexample :
    buildSnippet annEmpty.contextBefore annEmpty.contextLine annEmpty.contextAfter
      = snippetAt (splitLines "") annEmpty.line annEmpty.contextBefore.length
          annEmpty.contextAfter.length
    ∧ annEmpty.line = 1 ∧ annEmpty.line ≤ (splitLines "").length
    ∧ remapAnnotation annEmpty (loadFileContext (some "") (some "") none)
        = .unmapped .fileMissing none
    ∧ (ResolutionStatus.unmapped .fileMissing none
        ≠ .auto annEmpty.line 1 .diff) := by
  refine ⟨by decide, by decide, by decide, by decide, by decide⟩

/-- Witness for C1 at a concrete two-line file. -/
theorem identity_remap_witness :
    remapAnnotation (mkAnn "x") (loadFileContext (some "x\ny") (some "x\ny") none)
      = .auto 1 1 .diff :=
  identity_remap "x\ny" (mkAnn "x") none (by decide) (by decide) (by decide)
    (by decide)

theorem lineMapGet_mem {m : LineMap} {k : ℕ} {e : LineMapEntry}
    (h : lineMapGet m k = some e) : (k, e) ∈ m := by
  induction m with
  | nil => cases h
  | cons p rest ih =>
    obtain ⟨k', e'⟩ := p
    rw [lineMapGet] at h
    by_cases hk : k' = k
    · rw [if_pos hk] at h
      cases h
      subst hk
      exact List.mem_cons_self _ _
    · rw [if_neg hk] at h
      exact List.mem_cons_of_mem _ (ih h)

/-- Every entry `buildLineMap` hands out is either mapped to a positive
new line or deleted without one. -/
theorem buildLineMap_entry_shape {ot nt : String} {l : ℕ} {e : LineMapEntry}
    (h : lineMapGet (buildLineMap ot nt) l = some e) :
    (e.status = .mapped ∧ ∃ k, 1 ≤ k ∧ e.newLine = some k)
    ∨ (e.status = .deleted ∧ e.newLine = none) := by
  have hmem := lineMapGet_mem h
  simpa using lineMapOfParts_shape (diffL (splitLines ot) (splitLines nt)) 1 1 hmem

/-- Claim C3: with both contents available and non-empty, the diff fast
path of `remapAnnotation` yields an immediate `auto` (at the mapped
line, with the snippet similarity as confidence and source `diff`)
exactly when the stored line is mapped and the same-shaped new snippet
scores at or above the strict threshold; a deleted stored line
contributes nothing and remapping falls through to plain candidate
search; a mapped line scoring below the strict threshold is retained as
one extra `diff`-source candidate merged into candidate search. -/
theorem diff_fast_path (ann : Annotation) (ot nt : String) (si : Option SymbolIndex)
    (hot : ot ≠ "") (hnt : nt ≠ "") :
    (∀ k, lineMapGet (buildLineMap ot nt) ann.line = some ⟨.mapped, some k⟩ →
      ((STRICT_THRESHOLD ≤ safeSimilarity
          (buildSnippet ann.contextBefore ann.contextLine ann.contextAfter)
          (snippetAt (splitLines nt) k ann.contextBefore.length ann.contextAfter.length) →
        remapAnnotation ann (loadFileContext (some ot) (some nt) si)
          = .auto k (safeSimilarity
              (buildSnippet ann.contextBefore ann.contextLine ann.contextAfter)
              (snippetAt (splitLines nt) k ann.contextBefore.length
                ann.contextAfter.length)) .diff)
      ∧ (safeSimilarity
          (buildSnippet ann.contextBefore ann.contextLine ann.contextAfter)
          (snippetAt (splitLines nt) k ann.contextBefore.length ann.contextAfter.length)
            < STRICT_THRESHOLD →
        remapAnnotation ann (loadFileContext (some ot) (some nt) si)
          = classifyMerged ann (splitLines nt) si
              (some ⟨k, safeSimilarity
                  (buildSnippet ann.contextBefore ann.contextLine ann.contextAfter)
                  (snippetAt (splitLines nt) k ann.contextBefore.length
                    ann.contextAfter.length), .diff,
                some (snippetAt (splitLines nt) k ann.contextBefore.length
                  ann.contextAfter.length), ann.symbolPath⟩))))
    ∧ (lineMapGet (buildLineMap ot nt) ann.line = some ⟨.deleted, none⟩ →
      tryDiffMapping ann (loadFileContext (some ot) (some nt) si)
          (buildSnippet ann.contextBefore ann.contextLine ann.contextAfter)
        = ⟨none, none⟩
      ∧ remapAnnotation ann (loadFileContext (some ot) (some nt) si)
          = classifyMerged ann (splitLines nt) si none)
    ∧ ((tryDiffMapping ann (loadFileContext (some ot) (some nt) si)
          (buildSnippet ann.contextBefore ann.contextLine ann.contextAfter)).resolution
          ≠ none
        ↔ ∃ k, lineMapGet (buildLineMap ot nt) ann.line = some ⟨.mapped, some k⟩
            ∧ STRICT_THRESHOLD ≤ safeSimilarity
                (buildSnippet ann.contextBefore ann.contextLine ann.contextAfter)
                (snippetAt (splitLines nt) k ann.contextBefore.length
                  ann.contextAfter.length)) := by
  have hmap : (loadFileContext (some ot) (some nt) si).lineMap
      = some (buildLineMap ot nt) := by
    simp [loadFileContext, hot, hnt]
  have hlines : (loadFileContext (some ot) (some nt) si).newLines
      = some (splitLines nt) := by
    simp [loadFileContext]
  have hsym : (loadFileContext (some ot) (some nt) si).symbolIndex = si := by
    simp [loadFileContext, hnt]
  have hco : (loadFileContext (some ot) (some nt) si).oldContent = some ot := by
    simp [loadFileContext]
  have hcn : (loadFileContext (some ot) (some nt) si).newContent = some nt := by
    simp [loadFileContext]
  have hstep := remapAnnotation_step ann (loadFileContext (some ot) (some nt) si)
    nt (splitLines nt) ot (buildLineMap ot nt) hcn hnt hlines hco hot hmap
  refine ⟨?_, ?_, ?_⟩
  · intro k hk
    have hk0 : ¬ k = 0 := by
      rcases buildLineMap_entry_shape hk with ⟨_, k', h1, h2⟩ | ⟨_, h2⟩
      · simp only at h2
        cases h2
        omega
      · cases h2
    have htry0 : tryDiffMapping ann (loadFileContext (some ot) (some nt) si)
        (buildSnippet ann.contextBefore ann.contextLine ann.contextAfter)
        = if STRICT_THRESHOLD ≤ safeSimilarity
              (buildSnippet ann.contextBefore ann.contextLine ann.contextAfter)
              (snippetAt (splitLines nt) k ann.contextBefore.length
                ann.contextAfter.length) then
            ⟨some (.auto k (safeSimilarity
              (buildSnippet ann.contextBefore ann.contextLine ann.contextAfter)
              (snippetAt (splitLines nt) k ann.contextBefore.length
                ann.contextAfter.length)) .diff), none⟩
          else
            ⟨none, some ⟨k, safeSimilarity
                (buildSnippet ann.contextBefore ann.contextLine ann.contextAfter)
                (snippetAt (splitLines nt) k ann.contextBefore.length
                  ann.contextAfter.length), .diff,
              some (snippetAt (splitLines nt) k ann.contextBefore.length
                ann.contextAfter.length), ann.symbolPath⟩⟩ := by
      rw [tryDiffMapping.eq_def, hmap, hlines]
      dsimp only
      rw [hk]
      dsimp only
      rw [if_neg hk0]
    constructor
    · intro hge
      rw [hstep, htry0, if_pos hge]
    · intro hlt
      rw [hstep, htry0, if_neg (not_le.2 hlt), hsym]
  · intro hk
    have htry : tryDiffMapping ann (loadFileContext (some ot) (some nt) si)
        (buildSnippet ann.contextBefore ann.contextLine ann.contextAfter)
        = ⟨none, none⟩ := by
      rw [tryDiffMapping.eq_def, hmap, hlines]
      dsimp only
      rw [hk]
    exact ⟨htry, by rw [hstep, htry, hsym]⟩
  · constructor
    · intro hres
      cases hg : lineMapGet (buildLineMap ot nt) ann.line with
      | none =>
        have : tryDiffMapping ann (loadFileContext (some ot) (some nt) si)
            (buildSnippet ann.contextBefore ann.contextLine ann.contextAfter)
            = ⟨none, none⟩ := by
          rw [tryDiffMapping.eq_def, hmap, hlines]
          dsimp only
          rw [hg]
        rw [this] at hres
        exact absurd rfl hres
      | some e =>
        rcases buildLineMap_entry_shape hg with ⟨hs, k, hk1, hk2⟩ | ⟨hs, hn⟩
        · obtain ⟨st, nl⟩ := e
          simp only at hs hk2
          subst hs
          subst hk2
          have htry0 : tryDiffMapping ann (loadFileContext (some ot) (some nt) si)
              (buildSnippet ann.contextBefore ann.contextLine ann.contextAfter)
              = if STRICT_THRESHOLD ≤ safeSimilarity
                    (buildSnippet ann.contextBefore ann.contextLine ann.contextAfter)
                    (snippetAt (splitLines nt) k ann.contextBefore.length
                      ann.contextAfter.length) then
                  ⟨some (.auto k (safeSimilarity
                    (buildSnippet ann.contextBefore ann.contextLine ann.contextAfter)
                    (snippetAt (splitLines nt) k ann.contextBefore.length
                      ann.contextAfter.length)) .diff), none⟩
                else
                  ⟨none, some ⟨k, safeSimilarity
                      (buildSnippet ann.contextBefore ann.contextLine ann.contextAfter)
                      (snippetAt (splitLines nt) k ann.contextBefore.length
                        ann.contextAfter.length), .diff,
                    some (snippetAt (splitLines nt) k ann.contextBefore.length
                      ann.contextAfter.length), ann.symbolPath⟩⟩ := by
            rw [tryDiffMapping.eq_def, hmap, hlines]
            dsimp only
            rw [hg]
            dsimp only
            rw [if_neg (by omega : ¬ k = 0)]
          by_cases hth : STRICT_THRESHOLD ≤ safeSimilarity
              (buildSnippet ann.contextBefore ann.contextLine ann.contextAfter)
              (snippetAt (splitLines nt) k ann.contextBefore.length
                ann.contextAfter.length)
          · exact ⟨k, rfl, hth⟩
          · rw [htry0, if_neg hth] at hres
            exact absurd rfl hres
        · obtain ⟨st, nl⟩ := e
          simp only at hs hn
          subst hs
          subst hn
          have : tryDiffMapping ann (loadFileContext (some ot) (some nt) si)
              (buildSnippet ann.contextBefore ann.contextLine ann.contextAfter)
              = ⟨none, none⟩ := by
            rw [tryDiffMapping.eq_def, hmap, hlines]
            dsimp only
            rw [hg]
          rw [this] at hres
          exact absurd rfl hres
    · rintro ⟨k, hk, hge⟩
      have hk0 : ¬ k = 0 := by
        rcases buildLineMap_entry_shape hk with ⟨_, k', h1, h2⟩ | ⟨_, h2⟩
        · simp only at h2
          cases h2
          omega
        · cases h2
      have : tryDiffMapping ann (loadFileContext (some ot) (some nt) si)
          (buildSnippet ann.contextBefore ann.contextLine ann.contextAfter)
          = ⟨some (.auto k (safeSimilarity
              (buildSnippet ann.contextBefore ann.contextLine ann.contextAfter)
              (snippetAt (splitLines nt) k ann.contextBefore.length
                ann.contextAfter.length)) .diff), none⟩ := by
        rw [tryDiffMapping.eq_def, hmap, hlines]
        dsimp only
        rw [hk]
        dsimp only
        rw [if_neg hk0, if_pos hge]
      rw [this]
      simp

/-- Witness for C3: on an unchanged two-line file the stored line is
mapped, scores 1 and the fast path auto-resolves. -/
theorem diff_fast_path_witness :
    lineMapGet (buildLineMap "x\ny" "x\ny") (mkAnn "x").line
        = some ⟨.mapped, some 1⟩
    ∧ remapAnnotation (mkAnn "x") (loadFileContext (some "x\ny") (some "x\ny") none)
        = .auto 1 (safeSimilarity
            (buildSnippet (mkAnn "x").contextBefore (mkAnn "x").contextLine
              (mkAnn "x").contextAfter)
            (snippetAt (splitLines "x\ny") 1 (mkAnn "x").contextBefore.length
              (mkAnn "x").contextAfter.length)) .diff
    ∧ safeSimilarity
        (buildSnippet (mkAnn "x").contextBefore (mkAnn "x").contextLine
          (mkAnn "x").contextAfter)
        (snippetAt (splitLines "x\ny") 1 (mkAnn "x").contextBefore.length
          (mkAnn "x").contextAfter.length) = 1 :=
  ⟨by decide,
   ((diff_fast_path (mkAnn "x") "x\ny" "x\ny" none (by decide) (by decide)).1 1
      (by decide)).1 (by with_unfolding_all decide),
   by with_unfolding_all decide⟩

/- ----------------------------------------------------------------- -/
/- Lemmas on candidate dedup and classification                      -/
/- ----------------------------------------------------------------- -/

theorem upsertBest_fst (acc : List (ℕ × MatchCandidate)) (c : MatchCandidate) :
    (upsertBest acc c).map Prod.fst
      = if c.line ∈ acc.map Prod.fst then acc.map Prod.fst
        else acc.map Prod.fst ++ [c.line] := by
  induction acc with
  | nil => simp [upsertBest]
  | cons p rest ih =>
    obtain ⟨k, e⟩ := p
    rw [upsertBest]
    by_cases hk : k = c.line
    · subst hk
      by_cases hs : e.score < c.score
      · rw [if_pos rfl, if_pos hs]
        simp
      · rw [if_pos rfl, if_neg hs]
        simp
    · rw [if_neg hk]
      have hcl : c.line ∈ List.map Prod.fst ((k, e) :: rest)
          ↔ c.line ∈ List.map Prod.fst rest := by
        simp only [List.map_cons, List.mem_cons]
        constructor
        · rintro (h | h)
          · exact absurd h.symm hk
          · exact h
        · exact Or.inr
      by_cases hmem : c.line ∈ rest.map Prod.fst
      · rw [List.map_cons, ih, if_pos hmem, if_pos (hcl.2 hmem), List.map_cons]
      · rw [List.map_cons, ih, if_neg hmem, if_neg (fun h => hmem (hcl.1 h)),
          List.map_cons, List.cons_append]

theorem mem_upsertBest {p : ℕ × MatchCandidate}
    (acc : List (ℕ × MatchCandidate)) (c : MatchCandidate)
    (h : p ∈ upsertBest acc c) : p ∈ acc ∨ p = (c.line, c) := by
  induction acc with
  | nil =>
    rw [upsertBest] at h
    rcases List.mem_cons.1 h with h | h
    · exact Or.inr h
    · cases h
  | cons q rest ih =>
    obtain ⟨k, e⟩ := q
    rw [upsertBest] at h
    by_cases hk : k = c.line
    · rw [if_pos hk] at h
      by_cases hs : e.score < c.score
      · rw [if_pos hs] at h
        rcases List.mem_cons.1 h with h | h
        · exact Or.inr (by rw [h, hk])
        · exact Or.inl (List.mem_cons_of_mem _ h)
      · rw [if_neg hs] at h
        rcases List.mem_cons.1 h with h | h
        · exact Or.inl (by rw [h]; exact List.mem_cons_self _ _)
        · exact Or.inl (List.mem_cons_of_mem _ h)
    · rw [if_neg hk] at h
      rcases List.mem_cons.1 h with h | h
      · exact Or.inl (by rw [h]; exact List.mem_cons_self _ _)
      · rcases ih h with h' | h'
        · exact Or.inl (List.mem_cons_of_mem _ h')
        · exact Or.inr h'

theorem upsertBest_coherent (acc : List (ℕ × MatchCandidate)) (c : MatchCandidate)
    (hacc : ∀ p ∈ acc, (Prod.snd p).line = p.1) :
    ∀ p ∈ upsertBest acc c, (Prod.snd p).line = p.1 := by
  intro p hp
  rcases mem_upsertBest acc c hp with h | h
  · exact hacc p h
  · rw [h]

theorem upsertBest_nodup (acc : List (ℕ × MatchCandidate)) (c : MatchCandidate)
    (h : (acc.map Prod.fst).Nodup) : ((upsertBest acc c).map Prod.fst).Nodup := by
  rw [upsertBest_fst]
  by_cases hmem : c.line ∈ acc.map Prod.fst
  · rwa [if_pos hmem]
  · rw [if_neg hmem]
    simp [List.nodup_append, h, hmem]

theorem upsertBest_score_at (acc : List (ℕ × MatchCandidate)) (c : MatchCandidate)
    (hnd : (acc.map Prod.fst).Nodup) :
    ∀ p ∈ upsertBest acc c, p.1 = c.line → c.score ≤ (Prod.snd p).score := by
  induction acc with
  | nil =>
    intro p hp _
    rw [upsertBest] at hp
    rcases List.mem_cons.1 hp with h | h
    · rw [h]
    · cases h
  | cons q rest ih =>
    obtain ⟨k, e⟩ := q
    rw [List.map_cons] at hnd
    have hnd1 : k ∉ rest.map Prod.fst := (List.nodup_cons.1 hnd).1
    have hnd2 : (rest.map Prod.fst).Nodup := (List.nodup_cons.1 hnd).2
    intro p hp hline
    rw [upsertBest] at hp
    by_cases hk : k = c.line
    · rw [if_pos hk] at hp
      by_cases hs : e.score < c.score
      · rw [if_pos hs] at hp
        rcases List.mem_cons.1 hp with h | h
        · rw [h]
        · have hpm : p.1 ∈ rest.map Prod.fst := List.mem_map_of_mem Prod.fst h
          rw [hline, ← hk] at hpm
          exact absurd hpm hnd1
      · rw [if_neg hs] at hp
        rcases List.mem_cons.1 hp with h | h
        · rw [h]
          simpa using not_lt.1 hs
        · have hpm : p.1 ∈ rest.map Prod.fst := List.mem_map_of_mem Prod.fst h
          rw [hline, ← hk] at hpm
          exact absurd hpm hnd1
    · rw [if_neg hk] at hp
      rcases List.mem_cons.1 hp with h | h
      · refine absurd ?_ hk
        rw [h] at hline
        exact hline
      · exact ih hnd2 p h hline

theorem upsertBest_score_mono (acc : List (ℕ × MatchCandidate)) (c : MatchCandidate)
    (k : ℕ) (s : ℚ)
    (hacc : ∀ q ∈ acc, q.1 = k → s ≤ (Prod.snd q).score)
    (hside : k = c.line → k ∈ acc.map Prod.fst) :
    ∀ p ∈ upsertBest acc c, p.1 = k → s ≤ (Prod.snd p).score := by
  induction acc with
  | nil =>
    intro p hp hline
    rw [upsertBest] at hp
    rcases List.mem_cons.1 hp with h | h
    · rw [h] at hline
      simp only at hline
      exact absurd (hside hline.symm) (by simp)
    · cases h
  | cons q rest ih =>
    obtain ⟨k', e⟩ := q
    intro p hp hline
    rw [upsertBest] at hp
    by_cases hk' : k' = c.line
    · rw [if_pos hk'] at hp
      by_cases hs : e.score < c.score
      · rw [if_pos hs] at hp
        rcases List.mem_cons.1 hp with h | h
        · rw [h] at hline
          simp only at hline
          have hke : s ≤ e.score := hacc (k', e) (List.mem_cons_self _ _) hline
          rw [h]
          exact le_of_lt (lt_of_le_of_lt hke hs)
        · exact hacc p (List.mem_cons_of_mem _ h) hline
      · rw [if_neg hs] at hp
        rcases List.mem_cons.1 hp with h | h
        · refine hacc p ?_ hline
          rw [h]
          exact List.mem_cons_self _ _
        · exact hacc p (List.mem_cons_of_mem _ h) hline
    · rw [if_neg hk'] at hp
      rcases List.mem_cons.1 hp with h | h
      · refine hacc p ?_ hline
        rw [h]
        exact List.mem_cons_self _ _
      · refine ih (fun q hq hq' => hacc q (List.mem_cons_of_mem _ hq) hq') ?_ p h hline
        intro hkc
        have hin := hside hkc
        rw [List.map_cons] at hin
        rcases List.mem_cons.1 hin with h' | h'
        · refine absurd ?_ hk'
          have h'' : k = k' := h'
          rw [← h'']
          exact hkc
        · exact h'

theorem foldl_upsert_mem_source (cs : List MatchCandidate)
    (acc : List (ℕ × MatchCandidate)) {p : ℕ × MatchCandidate}
    (h : p ∈ cs.foldl upsertBest acc) : p ∈ acc ∨ ∃ c ∈ cs, p = (c.line, c) := by
  induction cs generalizing acc with
  | nil => exact Or.inl h
  | cons c rest ih =>
    rcases ih (upsertBest acc c) h with h' | ⟨c', hc', rfl⟩
    · rcases mem_upsertBest acc c h' with h'' | h''
      · exact Or.inl h''
      · exact Or.inr ⟨c, List.mem_cons_self _ _, h''⟩
    · exact Or.inr ⟨c', List.mem_cons_of_mem _ hc', rfl⟩

theorem foldl_upsert_keys_mono (cs : List MatchCandidate)
    (acc : List (ℕ × MatchCandidate)) :
    acc.map Prod.fst ⊆ (cs.foldl upsertBest acc).map Prod.fst := by
  induction cs generalizing acc with
  | nil => exact fun x hx => hx
  | cons c rest ih =>
    intro x hx
    refine ih (upsertBest acc c) ?_
    rw [upsertBest_fst]
    by_cases hmem : c.line ∈ acc.map Prod.fst
    · rwa [if_pos hmem]
    · rw [if_neg hmem]
      exact List.mem_append_left _ hx

theorem foldl_upsert_key_present (cs : List MatchCandidate)
    (acc : List (ℕ × MatchCandidate)) (c : MatchCandidate) (hc : c ∈ cs) :
    c.line ∈ (cs.foldl upsertBest acc).map Prod.fst := by
  induction cs generalizing acc with
  | nil => cases hc
  | cons d rest ih =>
    rcases List.mem_cons.1 hc with h | h
    · subst h
      refine foldl_upsert_keys_mono rest (upsertBest acc c) ?_
      rw [upsertBest_fst]
      by_cases hmem : c.line ∈ acc.map Prod.fst
      · rwa [if_pos hmem]
      · rw [if_neg hmem]
        exact List.mem_append_right _ (List.mem_singleton_self _)
    · exact ih (upsertBest acc d) h

theorem foldl_upsert_nodup (cs : List MatchCandidate)
    (acc : List (ℕ × MatchCandidate)) (h : (acc.map Prod.fst).Nodup) :
    ((cs.foldl upsertBest acc).map Prod.fst).Nodup := by
  induction cs generalizing acc with
  | nil => exact h
  | cons c rest ih => exact ih _ (upsertBest_nodup acc c h)

theorem foldl_upsert_coherent (cs : List MatchCandidate)
    (acc : List (ℕ × MatchCandidate)) (h : ∀ p ∈ acc, (Prod.snd p).line = p.1) :
    ∀ p ∈ cs.foldl upsertBest acc, (Prod.snd p).line = p.1 := by
  induction cs generalizing acc with
  | nil => exact h
  | cons c rest ih => exact ih _ (upsertBest_coherent acc c h)

theorem foldl_upsert_score_at (cs : List MatchCandidate)
    (acc : List (ℕ × MatchCandidate)) (k : ℕ) (s : ℚ)
    (hin : k ∈ acc.map Prod.fst)
    (hacc : ∀ q ∈ acc, q.1 = k → s ≤ (Prod.snd q).score) :
    ∀ p ∈ cs.foldl upsertBest acc, p.1 = k → s ≤ (Prod.snd p).score := by
  induction cs generalizing acc with
  | nil => exact hacc
  | cons c rest ih =>
    refine ih (upsertBest acc c) ?_ ?_
    · rw [upsertBest_fst]
      by_cases hmem : c.line ∈ acc.map Prod.fst
      · rwa [if_pos hmem]
      · rw [if_neg hmem]
        exact List.mem_append_left _ hin
    · exact upsertBest_score_mono acc c k s hacc (fun _ => hin)

theorem foldl_upsert_max (cs : List MatchCandidate)
    (acc : List (ℕ × MatchCandidate)) (hnd : (acc.map Prod.fst).Nodup) :
    ∀ p ∈ cs.foldl upsertBest acc, ∀ c ∈ cs, c.line = p.1 →
      c.score ≤ (Prod.snd p).score := by
  induction cs generalizing acc with
  | nil =>
    intro p _ c hc
    cases hc
  | cons c rest ih =>
    intro p hp c' hc' hline
    rcases List.mem_cons.1 hc' with h | h
    · refine foldl_upsert_score_at rest (upsertBest acc c) c'.line c'.score ?_ ?_
        p hp hline.symm
      · rw [h, upsertBest_fst]
        by_cases hmem : c.line ∈ acc.map Prod.fst
        · rwa [if_pos hmem]
        · rw [if_neg hmem]
          exact List.mem_append_right _ (List.mem_singleton_self _)
      · rw [h]
        exact upsertBest_score_at acc c hnd
    · exact ih (upsertBest acc c) (upsertBest_nodup acc c hnd) p hp c' h hline

theorem mem_dedupeCandidates {cs : List MatchCandidate} {c : MatchCandidate}
    (h : c ∈ dedupeCandidates cs) : c ∈ cs := by
  rw [dedupeCandidates] at h
  rw [(List.mergeSort_perm _ _).mem_iff] at h
  obtain ⟨p, hp, rfl⟩ := List.mem_map.1 h
  rcases foldl_upsert_mem_source cs [] hp with h' | ⟨c', hc', rfl⟩
  · cases h'
  · exact hc'

theorem dedupeCandidates_max {cs : List MatchCandidate} {c : MatchCandidate}
    (h : c ∈ dedupeCandidates cs) :
    ∀ c' ∈ cs, c'.line = c.line → c'.score ≤ c.score := by
  rw [dedupeCandidates] at h
  rw [(List.mergeSort_perm _ _).mem_iff] at h
  obtain ⟨p, hp, rfl⟩ := List.mem_map.1 h
  intro c' hc' hline
  have hcoh := foldl_upsert_coherent cs [] (by simp) p hp
  exact foldl_upsert_max cs [] (by simp) p hp c' hc' (by rw [hline, hcoh])

theorem dedupeCandidates_repr {cs : List MatchCandidate} {c : MatchCandidate}
    (h : c ∈ cs) : ∃ d ∈ dedupeCandidates cs, d.line = c.line := by
  have hk := foldl_upsert_key_present cs [] c h
  obtain ⟨p, hp, hfst⟩ := List.mem_map.1 hk
  refine ⟨Prod.snd p, ?_, ?_⟩
  · rw [dedupeCandidates, (List.mergeSort_perm _ _).mem_iff]
    exact List.mem_map_of_mem Prod.snd hp
  · rw [foldl_upsert_coherent cs [] (by simp) p hp, hfst]

theorem dedupeCandidates_sorted (cs : List MatchCandidate) :
    (dedupeCandidates cs).Pairwise fun a b => b.score ≤ a.score := by
  have h := @List.sorted_mergeSort MatchCandidate
    (fun a b => decide (b.score ≤ a.score))
    (fun a b c hab hbc => by
      simp only [decide_eq_true_eq] at hab hbc ⊢
      exact le_trans hbc hab)
    (fun a b => by
      simp only [Bool.or_eq_true, decide_eq_true_eq]
      exact le_total b.score a.score)
    ((cs.foldl upsertBest []).map Prod.snd)
  exact h.imp fun hab => of_decide_eq_true hab

theorem dedupeCandidates_lines (cs : List MatchCandidate) :
    (dedupeCandidates cs).Pairwise fun a b => a.line ≠ b.line := by
  have hvals : ((cs.foldl upsertBest []).map Prod.snd).Pairwise
      (fun a b => a.line ≠ b.line) := by
    rw [List.pairwise_map]
    have hnd : ((cs.foldl upsertBest []).map Prod.fst).Nodup :=
      foldl_upsert_nodup cs [] (by simp)
    have hmapeq : (cs.foldl upsertBest []).map (fun p => (Prod.snd p).line)
        = (cs.foldl upsertBest []).map Prod.fst :=
      List.map_congr_left (foldl_upsert_coherent cs [] (by simp))
    have : ((cs.foldl upsertBest []).map fun p => (Prod.snd p).line).Nodup := by
      rw [hmapeq]
      exact hnd
    exact List.pairwise_map.1 this
  rw [dedupeCandidates]
  exact ((List.mergeSort_perm _ _).pairwise_iff (fun h => Ne.symm h)).2 hvals

theorem classifyMerged_candidates_inv (ann : Annotation) (nl : List String)
    (si : Option SymbolIndex) (dc : Option MatchCandidate) (L : List MatchCandidate)
    (h : classifyMerged ann nl si dc = .candidates L) :
    L = (dedupeCandidates (candidatePool ann nl si dc)).take MAX_CANDIDATES
      ∧ L ≠ [] := by
  rw [classifyMerged.eq_def] at h
  cases htake : (dedupeCandidates (candidatePool ann nl si dc)).take MAX_CANDIDATES with
  | nil =>
    rw [htake] at h
    cases h
  | cons b rest =>
    rw [htake] at h
    dsimp only at h
    by_cases h9 : STRICT_THRESHOLD ≤ b.score
    · rw [if_pos h9] at h
      cases h
    · rw [if_neg h9] at h
      by_cases h7 : CANDIDATE_THRESHOLD ≤ b.score
      · rw [if_pos h7] at h
        cases h
        exact ⟨rfl, by simp⟩
      · rw [if_neg h7] at h
        cases h

theorem tryDiffMapping_resolution_auto (ann : Annotation) (ctx : FileContext)
    (s : String) (r : ResolutionStatus)
    (h : (tryDiffMapping ann ctx s).resolution = some r) :
    ∃ l c, r = .auto l c .diff := by
  rw [tryDiffMapping.eq_def] at h
  dsimp only at h
  repeat' split at h
  all_goals simp at h
  exact ⟨_, _, h.symm⟩

theorem remapAnnotation_candidates_inv (ann : Annotation) (ctx : FileContext)
    (L : List MatchCandidate) (h : remapAnnotation ann ctx = .candidates L) :
    ∃ nl dc, ctx.newLines = some nl
      ∧ classifyMerged ann nl ctx.symbolIndex dc = .candidates L := by
  rw [ remapAnnotation.eq_def] at h
  split at h
  · split at h
    · simp at h
    · split at h
      · split at h
        · simp at h
        · dsimp only at h
          cases hres : (tryDiffMapping ann ctx
              (buildSnippet ann.contextBefore ann.contextLine ann.contextAfter)).resolution with
          | some r =>
            rw [hres] at h
            dsimp only at h
            obtain ⟨l, c, rfl⟩ := tryDiffMapping_resolution_auto ann ctx _ r hres
            simp at h
          | none =>
            rw [hres] at h
            dsimp only at h
            exact ⟨_, _, by assumption, h⟩
      · simp at h
  · simp at h

/-- Claim C5: the candidates of the three search strategies plus the
retained diff candidate are pooled; deduplication keeps, per target
line, only a highest-scoring pool member while every pooled line stays
represented; the surviving candidates are sorted by descending score
with pairwise-distinct lines; the list is truncated to at most 5; and a
`candidates` resolution always carries a non-empty list. -/
theorem candidate_pipeline :
    (∀ (cs : List MatchCandidate) (c : MatchCandidate), c ∈ dedupeCandidates cs →
      c ∈ cs ∧ ∀ c' ∈ cs, c'.line = c.line → c'.score ≤ c.score)
    ∧ (∀ (cs : List MatchCandidate) (c : MatchCandidate), c ∈ cs →
      ∃ d ∈ dedupeCandidates cs, d.line = c.line)
    ∧ (∀ cs : List MatchCandidate, (dedupeCandidates cs).Pairwise
        fun a b => b.score ≤ a.score ∧ a.line ≠ b.line)
    ∧ (∀ (ann : Annotation) (nl : List String) (si : Option SymbolIndex)
        (dc : Option MatchCandidate) (L : List MatchCandidate),
        classifyMerged ann nl si dc = .candidates L →
        L = (dedupeCandidates (candidatePool ann nl si dc)).take MAX_CANDIDATES
          ∧ L ≠ [])
    ∧ (∀ (ann : Annotation) (ctx : FileContext) (L : List MatchCandidate),
        remapAnnotation ann ctx = .candidates L →
        L ≠ [] ∧ L.length ≤ MAX_CANDIDATES
          ∧ L.Pairwise fun a b => b.score ≤ a.score ∧ a.line ≠ b.line) := by
  refine ⟨fun cs c h => ⟨mem_dedupeCandidates h, dedupeCandidates_max h⟩,
    fun cs c h => dedupeCandidates_repr h,
    fun cs => (dedupeCandidates_sorted cs).and (dedupeCandidates_lines cs),
    classifyMerged_candidates_inv, ?_⟩
  intro ann ctx L h
  obtain ⟨nl, dc, _, hcl⟩ := remapAnnotation_candidates_inv ann ctx L h
  obtain ⟨hL, hne⟩ := classifyMerged_candidates_inv ann nl ctx.symbolIndex dc L hcl
  refine ⟨hne, ?_, ?_⟩
  · rw [hL]
    exact List.length_take_le _ _
  · rw [hL]
    exact ((dedupeCandidates_sorted _).and (dedupeCandidates_lines _)).sublist
      (List.take_sublist _ _)

/-- Witness for C5 at a concrete remap producing two candidates. -/
theorem candidate_pipeline_witness :
    ([⟨1, 3/4, .fuzzyWindow, some "abcdefgXY", none⟩,
      ⟨2, 5/8, .fuzzyWindow, some "abcdefXYZ", none⟩] : List MatchCandidate) ≠ []
    ∧ ([⟨1, 3/4, .fuzzyWindow, some "abcdefgXY", none⟩,
        ⟨2, 5/8, .fuzzyWindow, some "abcdefXYZ", none⟩] :
          List MatchCandidate).length ≤ MAX_CANDIDATES
    ∧ ([⟨1, 3/4, .fuzzyWindow, some "abcdefgXY", none⟩,
        ⟨2, 5/8, .fuzzyWindow, some "abcdefXYZ", none⟩] :
          List MatchCandidate).Pairwise
        fun a b => b.score ≤ a.score ∧ a.line ≠ b.line :=
  candidate_pipeline.2.2.2.2 exAnnPool exCtxPool _ (by with_unfolding_all decide)

/-- Claim C2 counterexample: a `candidates` resolution whose second
member scores 5/8, strictly below the 0.70 candidate floor — a
sub-threshold candidate does appear in a returned resolution. -/
theorem threshold_exclusion_counterexample :
    remapAnnotation exAnnPool exCtxPool
      = .candidates [⟨1, 3/4, .fuzzyWindow, some "abcdefgXY", none⟩,
          ⟨2, 5/8, .fuzzyWindow, some "abcdefXYZ", none⟩]
    ∧ (5 : ℚ)/8 < CANDIDATE_THRESHOLD := by
  constructor
  · with_unfolding_all decide
  · rw [CANDIDATE_THRESHOLD]
    norm_num

/-- Claim C2 (amended): a top merged candidate scoring exactly 0.70 (or
anywhere in `[0.70, 0.90)`) yields the `candidates` resolution
containing it, and a top candidate below 0.70 yields
`unmapped(no-match)` with no candidate list — so no sub-0.70 candidate
is ever returned as the top of a resolution; trailing members of a
returned `candidates` list may nevertheless score below 0.70. -/
theorem threshold_rules :
    (∀ (ann : Annotation) (nl : List String) (si : Option SymbolIndex)
        (dc : Option MatchCandidate) (b : MatchCandidate)
        (rest : List MatchCandidate),
      (dedupeCandidates (candidatePool ann nl si dc)).take MAX_CANDIDATES
          = b :: rest →
      ((CANDIDATE_THRESHOLD ≤ b.score → b.score < STRICT_THRESHOLD →
          classifyMerged ann nl si dc = .candidates (b :: rest))
        ∧ (b.score < CANDIDATE_THRESHOLD →
          classifyMerged ann nl si dc = .unmapped .noMatch none)))
    ∧ (∀ (ann : Annotation) (ctx : FileContext) (L : List MatchCandidate),
        remapAnnotation ann ctx = .candidates L →
        ∃ b rest, L = b :: rest ∧ CANDIDATE_THRESHOLD ≤ b.score
          ∧ b.score < STRICT_THRESHOLD) := by
  constructor
  · intro ann nl si dc b rest htake
    constructor
    · intro h7 h9
      rw [classifyMerged.eq_def, htake]
      dsimp only
      rw [if_neg (not_le.2 h9), if_pos h7]
    · intro h7
      rw [classifyMerged.eq_def, htake]
      dsimp only
      rw [if_neg (not_le.2 (lt_trans h7 (by rw [CANDIDATE_THRESHOLD, STRICT_THRESHOLD]; norm_num))),
        if_neg (not_le.2 h7)]
  · intro ann ctx L h
    obtain ⟨nl, dc, _, hcl⟩ := remapAnnotation_candidates_inv ann ctx L h
    rw [classifyMerged.eq_def] at hcl
    cases htake : (dedupeCandidates (candidatePool ann nl ctx.symbolIndex dc)).take
        MAX_CANDIDATES with
    | nil =>
      rw [htake] at hcl
      cases hcl
    | cons b rest =>
      rw [htake] at hcl
      dsimp only at hcl
      by_cases h9 : STRICT_THRESHOLD ≤ b.score
      · rw [if_pos h9] at hcl
        cases hcl
      · rw [if_neg h9] at hcl
        by_cases h7 : CANDIDATE_THRESHOLD ≤ b.score
        · rw [if_pos h7] at hcl
          cases hcl
          exact ⟨b, rest, rfl, h7, not_le.1 h9⟩
        · rw [if_neg h7] at hcl
          cases hcl

/-- Witness for C2: a candidate scoring exactly 7/10 is the top of the
deduped list and the classifier returns it as a `candidates` member. -/
theorem threshold_rules_witness :
    (dedupeCandidates (candidatePool exAnnBoundary ["abcdefghXYZ"] none none)).take
        MAX_CANDIDATES
      = [⟨1, 7/10, .fuzzyWindow, some "abcdefghXYZ", none⟩]
    ∧ classifyMerged exAnnBoundary ["abcdefghXYZ"] none none
      = .candidates [⟨1, 7/10, .fuzzyWindow, some "abcdefghXYZ", none⟩]
    ∧ remapAnnotation exAnnBoundary exCtxBoundary
      = .candidates [⟨1, 7/10, .fuzzyWindow, some "abcdefghXYZ", none⟩] :=
  ⟨by with_unfolding_all decide,
   ((threshold_rules.1 exAnnBoundary ["abcdefghXYZ"] none none
      ⟨1, 7/10, .fuzzyWindow, some "abcdefghXYZ", none⟩ []
      (by with_unfolding_all decide)).1
      (by norm_num [CANDIDATE_THRESHOLD])
      (by norm_num [CANDIDATE_THRESHOLD, STRICT_THRESHOLD])),
   by with_unfolding_all decide⟩

/-- Every candidate of the three search strategies sits at an offset
inside the search region. -/
theorem search_candidate_line {snippetLines : List String} {region : SearchRegion}
    {c : MatchCandidate} (ctxLine snippet : String)
    (h : c ∈ exactSnippetSearch snippetLines region
      ∨ c ∈ contextLineSearch ctxLine snippet snippetLines region
      ∨ c ∈ fuzzyWindowSearch snippet snippetLines region) :
    ∃ i, i < region.lines.length ∧ c.line = region.startLine + i := by
  rcases h with h | h | h
  · rw [exactSnippetSearch] at h
    by_cases he : snippetLines.isEmpty
    · rw [if_pos he] at h
      cases h
    · rw [if_neg he] at h
      obtain ⟨i, hi, hf⟩ := List.mem_filterMap.1 h
      rw [List.mem_range] at hi
      have hsn : 1 ≤ snippetLines.length := by
        cases snippetLines with
        | nil => simp at he
        | cons a l => simp
      split at hf
      · cases hf
        exact ⟨i, by omega, rfl⟩
      · cases hf
  · rw [contextLineSearch] at h
    by_cases hb : isBlank ctxLine
    · rw [if_pos hb] at h
      cases h
    · rw [if_neg hb] at h
      obtain ⟨i, hi, hf⟩ := List.mem_filterMap.1 h
      rw [List.mem_range] at hi
      dsimp only at hf
      split at hf
      · cases hf
        exact ⟨i, hi, rfl⟩
      · cases hf
  · rw [fuzzyWindowSearch] at h
    by_cases he : snippetLines.isEmpty
    · rw [if_pos he] at h
      cases h
    · rw [if_neg he] at h
      obtain ⟨i, hi, hf⟩ := List.mem_filterMap.1 h
      rw [List.mem_range] at hi
      have hsn : 1 ≤ snippetLines.length := by
        cases snippetLines with
        | nil => simp at he
        | cons a l => simp
      dsimp only at hf
      split at hf
      · cases hf
        exact ⟨i, by omega, rfl⟩
      · cases hf

/-- Claim C6: when the annotation's symbol path resolves in the new
symbol index, every candidate any of the three search strategies
produces over the resulting region lies inside the resolved symbol's
start..end line range. -/
theorem symbol_scoping (newLines : List String) (symbolPath : Option String)
    (si : Option SymbolIndex) (range : SymbolRange)
    (hfind : findSymbolRange symbolPath si = some range)
    (snippetLines : List String) (ctxLine snippet : String) :
    ∀ c : MatchCandidate,
      (c ∈ exactSnippetSearch snippetLines (regionFor newLines symbolPath si)
        ∨ c ∈ contextLineSearch ctxLine snippet snippetLines
            (regionFor newLines symbolPath si)
        ∨ c ∈ fuzzyWindowSearch snippet snippetLines
            (regionFor newLines symbolPath si)) →
      range.startLine ≤ c.line ∧ c.line ≤ range.endLine := by
  intro c hc
  obtain ⟨i, hi, hline⟩ := search_candidate_line ctxLine snippet hc
  have hreg : regionFor newLines symbolPath si
      = ⟨(newLines.drop (range.startLine - 1)).take
          (min newLines.length range.endLine - (range.startLine - 1)),
        range.startLine, some range.path⟩ := by
    rw [regionFor.eq_def, hfind]
  rw [hreg] at hi hline
  dsimp only at hi hline
  rw [List.length_take] at hi
  have hmin : min newLines.length range.endLine ≤ range.endLine :=
    min_le_right _ _
  constructor
  · omega
  · omega

/-- Witness for C6: with two identical function bodies and the symbol
path naming the second, every candidate lies in lines 4-6 and the exact
match lands at line 5 (inside the second function only). -/
theorem symbol_scoping_witness :
    findSymbolRange (some "second") (some exIdxTwin)
        = some ⟨"second", 4, 6, "FunctionDeclaration"⟩
    ∧ (∀ c : MatchCandidate,
        (c ∈ exactSnippetSearch ["  return 1"]
            (regionFor exLinesTwin (some "second") (some exIdxTwin))
          ∨ c ∈ contextLineSearch "  return 1" "  return 1" ["  return 1"]
              (regionFor exLinesTwin (some "second") (some exIdxTwin))
          ∨ c ∈ fuzzyWindowSearch "  return 1" ["  return 1"]
              (regionFor exLinesTwin (some "second") (some exIdxTwin))) →
        4 ≤ c.line ∧ c.line ≤ 6)
    ∧ exactSnippetSearch ["  return 1"]
        (regionFor exLinesTwin (some "second") (some exIdxTwin))
      = [⟨5, 1, .exactSnippet, some "  return 1", some "second"⟩] :=
  ⟨by decide,
   symbol_scoping exLinesTwin (some "second") (some exIdxTwin)
     ⟨"second", 4, 6, "FunctionDeclaration"⟩ (by decide)
     ["  return 1"] "  return 1" "  return 1",
   by with_unfolding_all decide⟩

/- ----------------------------------------------------------------- -/
/- Lemmas on the flow status reconciler                              -/
/- ----------------------------------------------------------------- -/

theorem mem_dedupFirst {α : Type} [DecidableEq α] (l : List α) (seen : List α)
    (x : α) : x ∈ dedupFirst l seen ↔ x ∈ l ∧ x ∉ seen := by
  induction l generalizing seen with
  | nil => simp [dedupFirst]
  | cons y rest ih =>
    rw [dedupFirst]
    by_cases hy : y ∈ seen
    · rw [if_pos hy, ih]
      constructor
      · rintro ⟨hx, hs⟩
        exact ⟨List.mem_cons_of_mem _ hx, hs⟩
      · rintro ⟨hx, hs⟩
        rcases List.mem_cons.1 hx with rfl | hx
        · exact absurd hy hs
        · exact ⟨hx, hs⟩
    · rw [if_neg hy]
      constructor
      · intro hx
        rcases List.mem_cons.1 hx with rfl | hx
        · exact ⟨List.mem_cons_self _ _, hy⟩
        · obtain ⟨h1, h2⟩ := (ih _).1 hx
          exact ⟨List.mem_cons_of_mem _ h1,
            fun hs => h2 (List.mem_cons_of_mem _ hs)⟩
      · rintro ⟨hx, hs⟩
        rcases List.mem_cons.1 hx with rfl | hx
        · exact List.mem_cons_self _ _
        · by_cases hxy : x = y
          · subst hxy
            exact List.mem_cons_self _ _
          · refine List.mem_cons_of_mem _ ((ih _).2 ⟨hx, ?_⟩)
            simp [hxy, hs]

theorem filterlen_le_one_iff_pairwise {α β : Type} [DecidableEq β] (f : α → β)
    (l : List α) :
    (∀ k ∈ l.map f, (l.filter (fun x => f x = k)).length ≤ 1)
      ↔ l.Pairwise (fun x y => f x ≠ f y) := by
  induction l with
  | nil => simp
  | cons a t ih =>
    rw [List.pairwise_cons]
    constructor
    · intro h
      refine ⟨?_, ih.1 ?_⟩
      · intro y hy hf
        have h1 := h (f a) (by simp)
        rw [List.filter_cons_of_pos (by simp)] at h1
        simp only [List.length_cons] at h1
        have h2 : (t.filter (fun x => f x = f a)).length = 0 := by omega
        rw [List.length_eq_zero] at h2
        have hmem : y ∈ t.filter (fun x => f x = f a) :=
          List.mem_filter.2 ⟨hy, by simp [hf]⟩
        rw [h2] at hmem
        cases hmem
      · intro k hk
        have h1 := h k (by simp; right; simpa using hk)
        refine le_trans ?_ h1
        rw [List.filter_cons]
        split
        · simp
        · exact le_refl _
    · rintro ⟨ha, hp⟩
      intro k hk
      by_cases hak : f a = k
      · rw [List.filter_cons_of_pos (by simp [hak])]
        have hnone : t.filter (fun x => f x = k) = [] := by
          rw [List.filter_eq_nil]
          intro y hy
          simp only [decide_eq_true_eq]
          intro hyk
          exact ha y hy (by rw [hak, hyk])
        rw [hnone]
        simp
      · rw [List.filter_cons_of_neg (by simp [hak])]
        rcases List.mem_map.1 hk with ⟨x, hx, hfx⟩
        rcases List.mem_cons.1 hx with rfl | hx
        · exact absurd hfx hak
        · exact (ih.2 hp) k (List.mem_map.2 ⟨x, hx, hfx⟩)

theorem detectDuplicates_eq_nil (comments : List ParsedComment) :
    detectDuplicates comments = []
      ↔ comments.Pairwise (fun c c' => commentKey c ≠ commentKey c') := by
  rw [detectDuplicates, List.filterMap_eq_nil]
  rw [← filterlen_le_one_iff_pairwise commentKey comments]
  constructor
  · intro h k hk
    have := h k ((mem_dedupFirst _ _ _).2 ⟨hk, by simp⟩)
    cases hfil : comments.filter (fun c => commentKey c = k) with
    | nil => simp
    | cons g0 gs =>
      cases gs with
      | nil => simp
      | cons g1 gs' =>
        rw [hfil] at this
        cases this
  · intro h k hk
    rw [mem_dedupFirst] at hk
    have := h k hk.1
    cases hfil : comments.filter (fun c => commentKey c = k) with
    | nil => rfl
    | cons g0 gs =>
      cases gs with
      | nil => rfl
      | cons g1 gs' =>
        rw [hfil] at this
        simp at this

theorem matchResults_missing_eq_nil (uniq : List ParsedComment)
    (anns : List Annotation) :
    (matchResults uniq anns).missing = []
      ↔ ∀ a ∈ anns, ∃ c ∈ uniq, commentKey c = annKey a := by
  induction anns with
  | nil => simp [matchResults]
  | cons a rest ih =>
    rw [matchResults]
    cases hf : uniq.find? (fun c => commentKey c = annKey a) with
    | some c =>
      dsimp only
      have hc : c ∈ uniq ∧ commentKey c = annKey a := by
        refine ⟨List.mem_of_find?_eq_some hf, ?_⟩
        have := List.find?_some hf
        simpa using this
      split
      · simp only
        rw [ih]
        constructor
        · intro h
          intro a' ha'
          rcases List.mem_cons.1 ha' with rfl | ha'
          · exact ⟨c, hc.1, hc.2⟩
          · exact h a' ha'
        · intro h a' ha'
          exact h a' (List.mem_cons_of_mem _ ha')
      · simp only
        rw [ih]
        constructor
        · intro h
          intro a' ha'
          rcases List.mem_cons.1 ha' with rfl | ha'
          · exact ⟨c, hc.1, hc.2⟩
          · exact h a' ha'
        · intro h a' ha'
          exact h a' (List.mem_cons_of_mem _ ha')
    | none =>
      dsimp only
      constructor
      · intro h
        cases h
      · intro h
        obtain ⟨c, hcu, hck⟩ := h a (List.mem_cons_self _ _)
        rw [List.find?_eq_none] at hf
        exact absurd (by simpa using hck) (by simpa using hf c hcu)

theorem uniqueByKey_key_iff (cs : List ParsedComment) (seen : List String)
    (K : String) (hK : K ∉ seen) :
    (∃ c ∈ uniqueByKey cs seen, commentKey c = K)
      ↔ ∃ c ∈ cs, commentKey c = K := by
  induction cs generalizing seen with
  | nil => simp [uniqueByKey]
  | cons c rest ih =>
    rw [uniqueByKey]
    by_cases hc : commentKey c ∈ seen
    · rw [if_pos hc, ih seen hK]
      constructor
      · rintro ⟨d, hd, hk⟩
        exact ⟨d, List.mem_cons_of_mem _ hd, hk⟩
      · rintro ⟨d, hd, hk⟩
        rcases List.mem_cons.1 hd with rfl | hd
        · exact absurd (hk ▸ hc) hK
        · exact ⟨d, hd, hk⟩
    · rw [if_neg hc]
      by_cases hck : commentKey c = K
      · constructor
        · intro _
          exact ⟨c, List.mem_cons_self _ _, hck⟩
        · intro _
          exact ⟨c, List.mem_cons_self _ _, hck⟩
      · have hK' : K ∉ commentKey c :: seen := by
          simp only [List.mem_cons]
          rintro (h | h)
          · exact hck h.symm
          · exact hK h
        constructor
        · rintro ⟨d, hd, hk⟩
          rcases List.mem_cons.1 hd with rfl | hd
          · exact absurd hk hck
          · obtain ⟨e, he, hke⟩ := (ih _ hK').1 ⟨d, hd, hk⟩
            exact ⟨e, List.mem_cons_of_mem _ he, hke⟩
        · rintro ⟨d, hd, hk⟩
          rcases List.mem_cons.1 hd with rfl | hd
          · exact absurd hk hck
          · obtain ⟨e, he, hke⟩ := (ih _ hK').2 ⟨d, hd, hk⟩
            exact ⟨e, List.mem_cons_of_mem _ he, hke⟩

theorem uniqueByKey_eq_nil (cs : List ParsedComment) (seen : List String) :
    uniqueByKey cs seen = [] ↔ ∀ c ∈ cs, commentKey c ∈ seen := by
  induction cs generalizing seen with
  | nil => simp [uniqueByKey]
  | cons c rest ih =>
    rw [uniqueByKey]
    by_cases hc : commentKey c ∈ seen
    · rw [if_pos hc, ih]
      simp [hc]
    · rw [if_neg hc]
      simp [hc]



theorem summarizeFlow_status (flows : List FlowRecord) (pcs : List ParsedComment)
    (n : String)
    (hsome : flows.find? (fun f => f.name = n) = none →
      pcs.filter (fun c => c.flowName = n) ≠ []) :
    (summarizeFlow flows pcs n).status =
      (if ¬ (pcs.filter (fun c => c.flowName = n)).Pairwise
            (fun c c' => commentKey c ≠ commentKey c') then .duplicates
       else if ∃ a ∈ (match flows.find? (fun f => f.name = n) with
             | some f => f.annotations
             | none => ([] : List Annotation)),
           ∀ c ∈ pcs.filter (fun c => c.flowName = n), commentKey c ≠ annKey a
         then .missing
       else if (summarizeFlow flows pcs n).moved ≠ [] then .moved
       else if pcs.filter (fun c => c.flowName = n) = []
           ∧ (summarizeFlow flows pcs n).total = 0 then .notLoaded
       else if (summarizeFlow flows pcs n).present = (summarizeFlow flows pcs n).total
           ∧ (summarizeFlow flows pcs n).extras = 0 then .loaded
       else .partialLoad) := by
  cases hdb : flows.find? (fun f => f.name = n) with
  | none =>
    have hcne : pcs.filter (fun c : ParsedComment => c.flowName = n) ≠ [] := hsome hdb
    have huniq : uniqueByKey (pcs.filter (fun c : ParsedComment => c.flowName = n)) []
        ≠ [] := by
      rw [Ne, uniqueByKey_eq_nil]
      intro hall
      refine hcne (List.eq_nil_iff_forall_not_mem.2 fun c hc => ?_)
      simpa using hall c hc
    simp only [summarizeFlow, hdb, Option.isNone_none, Bool.or_true]
    by_cases hdup : (pcs.filter (fun c : ParsedComment => c.flowName = n)).Pairwise
        (fun c c' => commentKey c ≠ commentKey c')
    · have hC1c : ¬ ((detectDuplicates
          (pcs.filter (fun c : ParsedComment => c.flowName = n))).length ≠ 0) := by
        rw [Ne, List.length_eq_zero, detectDuplicates_eq_nil]
        exact not_not_intro hdup
      have hlen2 : ¬ (([] : List MissingEdge).length ≠ 0) := by simp
      have hlen3 : ¬ (([] : List MovedEdge).length ≠ 0) := by simp
      have hspec2 : ¬ ∃ a ∈ ([] : List Annotation),
          ∀ c ∈ pcs.filter (fun c : ParsedComment => c.flowName = n),
            commentKey c ≠ annKey a := by simp
      have hspec3 : ¬ (([] : List MovedEdge) ≠ []) := by simp
      have hcode4 : ¬ ((pcs.filter (fun c : ParsedComment => c.flowName = n)).length = 0
          ∧ True) := fun h => hcne (List.length_eq_zero.1 h.1)
      have hspec4 : ¬ (pcs.filter (fun c : ParsedComment => c.flowName = n) = []
          ∧ True) := fun h => hcne h.1
      have hcode5 : ¬ (true = false) := by simp
      have hspec5 : ¬ (True ∧ (List.filter (fun _ => true)
          (uniqueByKey (pcs.filter (fun c : ParsedComment => c.flowName = n)) [])).length
            = 0) := by
        rintro ⟨-, h⟩
        rw [List.filter_true] at h
        exact huniq (List.length_eq_zero.1 h)
      rw [if_neg (not_not_intro hdup), if_neg hC1c, if_neg hlen2, if_neg hspec2,
        if_neg hlen3, if_neg hspec3, if_neg hcode4, if_neg hspec4, if_neg hcode5,
        if_neg hspec5]
    · have hC1c : (detectDuplicates
          (pcs.filter (fun c : ParsedComment => c.flowName = n))).length ≠ 0 := by
        rw [Ne, List.length_eq_zero, detectDuplicates_eq_nil]
        exact hdup
      rw [if_pos hdup, if_pos hC1c]
  | some f =>
    have hmiff : (matchResults (uniqueByKey
          (pcs.filter (fun c : ParsedComment => c.flowName = n)) [])
          f.annotations).missing = []
        ↔ ∀ a ∈ f.annotations,
            ∃ c ∈ pcs.filter (fun c : ParsedComment => c.flowName = n),
              commentKey c = annKey a := by
      rw [matchResults_missing_eq_nil]
      constructor
      · intro h a ha
        exact (uniqueByKey_key_iff _ [] _ (by simp)).1 (h a ha)
      · intro h a ha
        exact (uniqueByKey_key_iff _ [] _ (by simp)).2 (h a ha)
    simp only [summarizeFlow, hdb, Option.isNone_some, Bool.or_false]
    by_cases hdup : (pcs.filter (fun c : ParsedComment => c.flowName = n)).Pairwise
        (fun c c' => commentKey c ≠ commentKey c')
    case neg =>
      have hC1c : (detectDuplicates
          (pcs.filter (fun c : ParsedComment => c.flowName = n))).length ≠ 0 := by
        rw [Ne, List.length_eq_zero, detectDuplicates_eq_nil]
        exact hdup
      rw [if_pos hdup, if_pos hC1c]
    case pos =>
      have hC1c : ¬ ((detectDuplicates
          (pcs.filter (fun c : ParsedComment => c.flowName = n))).length ≠ 0) := by
        rw [Ne, List.length_eq_zero, detectDuplicates_eq_nil]
        exact not_not_intro hdup
      rw [if_neg (not_not_intro hdup), if_neg hC1c]
      by_cases hmiss : ∃ a ∈ f.annotations,
          ∀ c ∈ pcs.filter (fun c : ParsedComment => c.flowName = n),
            commentKey c ≠ annKey a
      · have hC2c : (matchResults (uniqueByKey
            (pcs.filter (fun c : ParsedComment => c.flowName = n)) [])
            f.annotations).missing.length ≠ 0 := by
          rw [Ne, List.length_eq_zero]
          intro hnil
          obtain ⟨a, ha, hall⟩ := hmiss
          obtain ⟨c, hc, hck⟩ := hmiff.1 hnil a ha
          exact hall c hc hck
        rw [if_pos hmiss, if_pos hC2c]
      · have hmnil : (matchResults (uniqueByKey
            (pcs.filter (fun c : ParsedComment => c.flowName = n)) [])
            f.annotations).missing = [] := by
          rw [hmiff]
          push_neg at hmiss
          intro a ha
          obtain ⟨c, hc, hck⟩ := hmiss a ha
          exact ⟨c, hc, hck⟩
        rw [if_neg hmiss,
          if_neg (by rw [Ne, List.length_eq_zero]; exact not_not_intro hmnil :
            ¬ ((matchResults (uniqueByKey
              (pcs.filter (fun c : ParsedComment => c.flowName = n)) [])
              f.annotations).missing.length ≠ 0))]
        by_cases hmoved : (matchResults (uniqueByKey
            (pcs.filter (fun c : ParsedComment => c.flowName = n)) [])
            f.annotations).moved = []
        · rw [if_neg (by rw [Ne, List.length_eq_zero]; exact not_not_intro hmoved :
              ¬ ((matchResults (uniqueByKey
                (pcs.filter (fun c : ParsedComment => c.flowName = n)) [])
                f.annotations).moved.length ≠ 0)),
            if_neg (not_not_intro hmoved)]
          by_cases hnl : pcs.filter (fun c : ParsedComment => c.flowName = n) = []
              ∧ f.annotations.length = 0
          · rw [if_pos (⟨List.length_eq_zero.2 hnl.1, hnl.2⟩ :
                (pcs.filter (fun c : ParsedComment => c.flowName = n)).length = 0
                  ∧ f.annotations.length = 0),
              if_pos hnl]
          · rw [if_neg (fun h => hnl ⟨List.length_eq_zero.1 h.1, h.2⟩ :
                ¬ ((pcs.filter (fun c : ParsedComment => c.flowName = n)).length = 0
                  ∧ f.annotations.length = 0)),
              if_neg hnl]
            by_cases hload : (matchResults (uniqueByKey
                  (pcs.filter (fun c : ParsedComment => c.flowName = n)) [])
                  f.annotations).present = f.annotations.length
                ∧ (List.filter (fun c =>
                    !(matchResults (uniqueByKey
                        (pcs.filter (fun c : ParsedComment => c.flowName = n)) [])
                        f.annotations).matchedKeys.contains (commentKey c))
                    (uniqueByKey
                      (pcs.filter (fun c : ParsedComment => c.flowName = n)) [])).length
                  = 0
            · rw [if_pos (by
                  rw [Bool.or_eq_false_iff]
                  constructor
                  · simp only [decide_eq_false_iff_not, not_not]
                    exact hload.1
                  · simp only [decide_eq_false_iff_not, Nat.not_lt, Nat.le_zero]
                    exact hload.2 :
                  (decide ((matchResults (uniqueByKey
                      (pcs.filter (fun c : ParsedComment => c.flowName = n)) [])
                      f.annotations).present ≠ f.annotations.length)
                    || decide (0 < (List.filter (fun c =>
                        !(matchResults (uniqueByKey
                            (pcs.filter (fun c : ParsedComment => c.flowName = n)) [])
                            f.annotations).matchedKeys.contains (commentKey c))
                        (uniqueByKey
                          (pcs.filter (fun c : ParsedComment => c.flowName = n))
                          [])).length)) = false),
                if_pos hload]
            · rw [if_neg (by
                  simp only [Bool.or_eq_false_iff, decide_eq_false_iff_not, not_not,
                    Nat.not_lt, Nat.le_zero]
                  exact fun h => hload ⟨h.1, h.2⟩ :
                  ¬ ((decide ((matchResults (uniqueByKey
                      (pcs.filter (fun c : ParsedComment => c.flowName = n)) [])
                      f.annotations).present ≠ f.annotations.length)
                    || decide (0 < (List.filter (fun c =>
                        !(matchResults (uniqueByKey
                            (pcs.filter (fun c : ParsedComment => c.flowName = n)) [])
                            f.annotations).matchedKeys.contains (commentKey c))
                        (uniqueByKey
                          (pcs.filter (fun c : ParsedComment => c.flowName = n))
                          [])).length)) = false)),
                if_neg hload]
        · rw [if_pos (by rw [Ne, List.length_eq_zero]; exact hmoved :
              (matchResults (uniqueByKey
                (pcs.filter (fun c : ParsedComment => c.flowName = n)) [])
                f.annotations).moved.length ≠ 0),
            if_pos hmoved]

/-- Claim C4 (amended): every flow summary's status follows the fixed
priority chain — duplicated edge identities among the current comments
give `duplicates`; else a stored annotation whose edge identity is
absent from the current comments gives `missing`; else any moved edge
gives `moved`; else, when the flow has no current comments and a stored
total of zero, the status is `notLoaded`; else the status is `loaded`
exactly when the present count equals the stored total with no extras,
and `partialLoad` otherwise. -/
theorem flow_status_priority (flows : List FlowRecord) (pcs : List ParsedComment)
    (s : FlowSummary) (hs : s ∈ computeFlowSummaries flows pcs) :
    s.status =
      (if ¬ (pcs.filter (fun c => c.flowName = s.name)).Pairwise
            (fun c c' => commentKey c ≠ commentKey c') then .duplicates
       else if ∃ a ∈ (match flows.find? (fun f => f.name = s.name) with
             | some f => f.annotations
             | none => ([] : List Annotation)),
           ∀ c ∈ pcs.filter (fun c => c.flowName = s.name), commentKey c ≠ annKey a
         then .missing
       else if s.moved ≠ [] then .moved
       else if pcs.filter (fun c => c.flowName = s.name) = [] ∧ s.total = 0
         then .notLoaded
       else if s.present = s.total ∧ s.extras = 0 then .loaded
       else .partialLoad) := by
  rw [computeFlowSummaries] at hs
  rw [(List.mergeSort_perm _ _).mem_iff] at hs
  obtain ⟨m, hm, rfl⟩ := List.mem_map.1 hs
  have hname : (summarizeFlow flows pcs m).name = m := rfl
  rw [hname]
  refine summarizeFlow_status flows pcs m ?_
  intro hnone
  rw [mem_dedupFirst] at hm
  rcases List.mem_append.1 hm.1 with h | h
  · rw [List.find?_eq_none] at hnone
    obtain ⟨g, hg, rfl⟩ := List.mem_map.1 h
    have hgg := hnone g hg
    simp at hgg
  · obtain ⟨c, hc, rfl⟩ := List.mem_map.1 h
    intro hfil
    have hmem : c ∈ pcs.filter (fun d : ParsedComment => d.flowName = c.flowName) :=
      List.mem_filter.2 ⟨hc, by simp⟩
    rw [hfil] at hmem
    cases hmem

/-- Claim C4 counterexample: a stored flow with zero annotations and an
empty scan yields status `notLoaded` although the present count equals
the stored total, there are no extras, and the duplicate, missing and
moved lists are all empty — the claim's chain would demand `loaded`. -/
theorem flow_status_priority_counterexample :
    computeFlowSummaries [exFlowEmpty] [] = [exSummaryEmpty]
    ∧ exSummaryEmpty.status = .notLoaded
    ∧ exSummaryEmpty.present = exSummaryEmpty.total
    ∧ exSummaryEmpty.extras = 0
    ∧ exSummaryEmpty.duplicates = []
    ∧ exSummaryEmpty.moved = []
    ∧ exSummaryEmpty.missing = []
    ∧ FlowLoadStatus.notLoaded ≠ FlowLoadStatus.loaded := by
  refine ⟨?_, by decide, by decide, by decide, by decide, by decide, by decide,
    by decide⟩
  with_unfolding_all decide

/-- Witness for C4 at the empty-flow scenario. -/
theorem flow_status_priority_witness :
    exSummaryEmpty ∈ computeFlowSummaries [exFlowEmpty] []
    ∧ exSummaryEmpty.status =
      (if ¬ (([] : List ParsedComment).filter
            (fun c => c.flowName = exSummaryEmpty.name)).Pairwise
            (fun c c' => commentKey c ≠ commentKey c') then .duplicates
       else if ∃ a ∈ (match ([exFlowEmpty] : List FlowRecord).find?
             (fun f => f.name = exSummaryEmpty.name) with
             | some f => f.annotations
             | none => ([] : List Annotation)),
           ∀ c ∈ ([] : List ParsedComment).filter
               (fun c => c.flowName = exSummaryEmpty.name),
             commentKey c ≠ annKey a
         then .missing
       else if exSummaryEmpty.moved ≠ [] then .moved
       else if ([] : List ParsedComment).filter
             (fun c => c.flowName = exSummaryEmpty.name) = []
           ∧ exSummaryEmpty.total = 0
         then .notLoaded
       else if exSummaryEmpty.present = exSummaryEmpty.total
           ∧ exSummaryEmpty.extras = 0 then .loaded
       else .partialLoad) :=
  ⟨by with_unfolding_all decide,
   flow_status_priority [exFlowEmpty] [] exSummaryEmpty
     (by with_unfolding_all decide)⟩
